import Mathlib

set_option maxRecDepth 40000

/-!
Verification of the RC_Timing repository (Double_Pi.py, PI_MODEL.py).

The Python code computes driving-point admittance moments of an RC ladder,
detects exact Double-Pi topologies, and fits a symmetric Double-Pi model by
moment matching.  Python floats are modelled as exact rationals (ℚ); Python
lists as Lean lists.  Each definition below mirrors one Python function.
-/

namespace RCTiming

/-! ### Moment engine (Double_Pi.apply_rules_reverse_linked_list) -/

/-- State of the five admittance moments `(y1, y2, y3, y4, y5)`. -/
abbrev Moments := ℚ × ℚ × ℚ × ℚ × ℚ

/-- The resistor transformation of `apply_rules_reverse_linked_list`
(Double_Pi.py lines 236-249).  The code snapshots `y1 .. y5` into
`y1_new .. y5_new` before reassigning. -/
def momentResStep (R y1 y2 y3 y4 y5 : ℚ) : Moments :=
  let y1n := y1
  let y2n := y2 - R * y1 ^ 2
  let y3n := y3 - 2 * R * y1 * y2 + R ^ 2 * y1 ^ 3
  let y4n := y4 - R * (2 * y1 * y3 + y2 ^ 2) + 3 * R ^ 2 * y1 ^ 2 * y2 - R ^ 3 * y1 ^ 4
  let y5n := y5 - R * (2 * y1 * y4 + 2 * y2 * y3)
      + R ^ 2 * (3 * y1 ^ 2 * y3 + 3 * y1 * y2 ^ 2)
      - 4 * R ^ 3 * y1 ^ 3 * y2 + R ^ 4 * y1 ^ 5
  (y1n, y2n, y3n, y4n, y5n)

/-- One component step of the moment recurrence: a capacitor adds its value to
`y1`, a resistor applies `momentResStep`, anything else leaves the state. -/
def momentUpdate (st : Moments) (comp : Char × ℚ) : Moments :=
  if comp.1 = 'C' then (st.1 + comp.2, st.2.1, st.2.2.1, st.2.2.2.1, st.2.2.2.2)
  else if comp.1 = 'R' then
    momentResStep comp.2 st.1 st.2.1 st.2.2.1 st.2.2.2.1 st.2.2.2.2
  else st

/-- `apply_rules_reverse_linked_list`: collect the linked list into a list
(file order) and traverse it from the last component to the first, starting
from the all-zero moment state. -/
def apply_rules_reverse_linked_list (comps : List (Char × ℚ)) : Moments :=
  comps.reverse.foldl momentUpdate (0, 0, 0, 0, 0)

/-! ### PI_MODEL.apply_rules (3-moment engine, in-place updates) -/

/-- The resistor step of `PI_MODEL.apply_rules` (lines 154-157).  The code
mutates `YU_2` first and the `YU_3` update then reads the already-updated
`YU_2`; this is mirrored exactly. -/
def piResStep (R u1 u2 u3 : ℚ) : ℚ × ℚ × ℚ :=
  let u2' := u2 - R * u1 ^ 2
  let u3' := u3 - (2 * R * u1 * u2' + R ^ 2 * u1 ^ 3)
  (u1, u2', u3')

/-- One component step of `PI_MODEL.apply_rules`. -/
def piUpdate (st : ℚ × ℚ × ℚ) (comp : Char × ℚ) : ℚ × ℚ × ℚ :=
  if comp.1 = 'C' then (st.1 + comp.2, st.2.1, st.2.2)
  else if comp.1 = 'R' then piResStep comp.2 st.1 st.2.1 st.2.2
  else st

/-- `PI_MODEL.apply_rules`: forward traversal of the component list. -/
def pi_apply_rules (comps : List (Char × ℚ)) : ℚ × ℚ × ℚ :=
  comps.foldl piUpdate (0, 0, 0)

/-! ### Moment-matching optimizer (Double_Pi.solve_double_pi_symmetric) -/

/-- `_k2_from(alpha, beta)` (Double_Pi.py lines 358-362). -/
def k2from (a b : ℚ) : ℚ :=
  b ^ 2 * (1 - a) ^ 3 + 2 * b * (1 - b) * ((1 - a) * a ^ 2) + (1 - b) ^ 2 * a ^ 3

/-- `beta_from_alpha(alpha)` (Double_Pi.py lines 364-368): `None` when
`|1 - 2 alpha| < 1e-15`, otherwise `(k1 - alpha^2) / (1 - 2 alpha)`. -/
def betaFromAlpha (k1 a : ℚ) : Option ℚ :=
  if |1 - 2 * a| < 1 / 10 ^ 15 then none else some ((k1 - a ^ 2) / (1 - 2 * a))

/-- The scan sample `alpha = eps + (0.5 - 2 eps) * (i / 1199)`, `eps = 1e-6`. -/
def alphaAt (i : ℕ) : ℚ :=
  1 / 10 ^ 6 + (1 / 2 - 2 / 10 ^ 6) * ((i : ℚ) / 1199)

/-- One iteration of the optimizer's 1200-sample scan (Double_Pi.py lines
372-383).  A candidate is `(err, alpha, beta)`; the running best is replaced
when `err < best.err` (ties keep the earlier candidate). -/
def scanStep (k1 k2t : ℚ) (best : Option (ℚ × ℚ × ℚ)) (i : ℕ) : Option (ℚ × ℚ × ℚ) :=
  match betaFromAlpha k1 (alphaAt i) with
  | none => best
  | some b =>
    if ¬ (0 < b ∧ b < 1) then best
    else if 1 - 2 * alphaAt i < 0 then best
    else
      match best with
      | none => some (|k2from (alphaAt i) b - k2t|, alphaAt i, b)
      | some bst =>
        if |k2from (alphaAt i) b - k2t| < bst.1 then
          some (|k2from (alphaAt i) b - k2t|, alphaAt i, b)
        else best

/-- The best candidate of the 1200-sample scan over `i = 0 .. 1199`. -/
def bestCandidate (k1 k2t : ℚ) : Option (ℚ × ℚ × ℚ) :=
  (List.range 1200).foldl (scanStep k1 k2t) none

/-- The `(alpha, beta, used_fallback)` triple selected after the scan
(Double_Pi.py lines 385-393): the canonical `(0.25, 0.5)` when no candidate
was feasible, otherwise the best candidate with the fallback flag recording
`resid > tol` (tol = 1e-10). -/
def solveABF (k1 k2t : ℚ) : ℚ × ℚ × Bool :=
  match bestCandidate k1 k2t with
  | none => (1 / 4, 1 / 2, true)
  | some best => (best.2.1, best.2.2, decide (1 / 10 ^ 10 < best.1))

/-- Final assembly of `solve_double_pi_symmetric` (lines 395-410): derive the
five component values from `(alpha, beta)` and, if any is out of range,
substitute the canonical partition with the fallback flag set. -/
def solveFrom (Rt Ct : ℚ) (abf : ℚ × ℚ × Bool) : ℚ × ℚ × ℚ × ℚ × ℚ × Bool :=
  if abf.1 * Ct ≤ 0 ∨ (1 - 2 * abf.1) * Ct < 0 ∨ abf.1 * Ct ≤ 0 ∨
      abf.2.1 * Rt ≤ 0 ∨ (1 - abf.2.1) * Rt ≤ 0 then
    (1 / 2 * Rt, 1 / 2 * Rt, 1 / 4 * Ct, 1 / 2 * Ct, 1 / 4 * Ct, true)
  else (abf.2.1 * Rt, (1 - abf.2.1) * Rt, abf.1 * Ct, (1 - 2 * abf.1) * Ct,
    abf.1 * Ct, abf.2.2)

/-- Body of `solve_double_pi_symmetric` after the positivity guard
(Double_Pi.py lines 355-410).  Returns `(R1, R2, C1, C2, C3, used_fallback)`;
the residual is not part of the return value in the code. -/
def solveCore (Rt Ct m1 m2 : ℚ) : ℚ × ℚ × ℚ × ℚ × ℚ × Bool :=
  solveFrom Rt Ct (solveABF (-m1 / (Rt * Ct * Ct)) (m2 / (Rt * Rt * Ct * Ct * Ct)))

/-- `solve_double_pi_symmetric(Rtot, Ctot, m1, m2)`: raises `ValueError`
(modelled as `none`) when `Rtot ≤ 0` or `Ctot ≤ 0`, otherwise runs the scan
and returns `(R1, R2, C1, C2, C3, used_fallback)`. -/
def solve_double_pi_symmetric (Rt Ct m1 m2 : ℚ) : Option (ℚ × ℚ × ℚ × ℚ × ℚ × Bool) :=
  if Rt ≤ 0 ∨ Ct ≤ 0 then none else some (solveCore Rt Ct m1 m2)

/-! ### Array-based exact detector (Double_Pi.detect_exact_double_pi) -/

/-- Indices of the resistors with `|R| ≥ 1e-12`, in array order. -/
def nzIndices (Rs : List ℚ) : List ℕ :=
  (List.range Rs.length).filter (fun i => 1 / 10 ^ 12 ≤ |Rs.getD i 0|)

/-- Group sizes of the spec's positional capacitor split for `n` capacitors:
divide the count by 3 and give the remainder to the earliest groups. -/
def specThirdsSizes (n : ℕ) : ℕ × ℕ :=
  (n / 3 + (if 1 ≤ n % 3 then 1 else 0), n / 3 + (if 2 ≤ n % 3 then 1 else 0))

/-- The spec's description of the positional capacitor split.
Modelled from the spec for comparison with the code's grouping. -/
def specThirds (Cs : List ℚ) : ℚ × ℚ × ℚ :=
  ((Cs.take (specThirdsSizes Cs.length).1).sum,
   ((Cs.drop (specThirdsSizes Cs.length).1).take (specThirdsSizes Cs.length).2).sum,
   (Cs.drop ((specThirdsSizes Cs.length).1 + (specThirdsSizes Cs.length).2)).sum)

/-- The standard-ladder capacitor grouping of `detect_exact_double_pi`
(`len(Cs) = len(Rs) + 1`): split at the non-zero resistor positions. -/
def ladderCaps (Cs : List ℚ) (i1 i2 : ℕ) : ℚ × ℚ × ℚ :=
  ((Cs.take (i1 + 1)).sum,
   ((Cs.drop (i1 + 1)).take (i2 - i1)).sum,
   (Cs.drop (i2 + 1)).sum)

/-- Section boundaries `(b1, b2)` of the flexible-format branch of
`detect_exact_double_pi` (Double_Pi.py lines 320-330). -/
def flexBounds (n : ℕ) : ℕ × ℕ :=
  if n % 3 = 0 then (n / 3, 2 * (n / 3))
  else if n % 3 = 1 then (n / 3 + 1, 2 * (n / 3) + 1)
  else (n / 3 + 1, 2 * (n / 3) + 2)

/-- The flexible-format capacitor grouping: three contiguous sections. -/
def flexCaps (Cs : List ℚ) : ℚ × ℚ × ℚ :=
  ((Cs.take (flexBounds Cs.length).1).sum,
   ((Cs.drop (flexBounds Cs.length).1).take
     ((flexBounds Cs.length).2 - (flexBounds Cs.length).1)).sum,
   (Cs.drop (flexBounds Cs.length).2).sum)

/-- Final positivity filter of `detect_exact_double_pi`. -/
def detectFinish (R1 R2 : ℚ) (caps : ℚ × ℚ × ℚ) : Option (ℚ × ℚ × ℚ × ℚ × ℚ) :=
  if R1 ≤ 0 ∨ R2 ≤ 0 ∨ caps.1 < 0 ∨ caps.2.1 < 0 ∨ caps.2.2 < 0 then none
  else some (R1, R2, caps.1, caps.2.1, caps.2.2)

/-- `detect_exact_double_pi(Rs, Cs)` (Double_Pi.py lines 295-341): requires
exactly two non-zero resistors and at least 3 capacitors; groups capacitors by
resistor boundaries when `len(Cs) = len(Rs) + 1`, otherwise splits them into
three near-equal contiguous sections. -/
def detect_exact_double_pi (Rs Cs : List ℚ) : Option (ℚ × ℚ × ℚ × ℚ × ℚ) :=
  match nzIndices Rs with
  | [i1, i2] =>
    if Cs.length < 3 then none
    else
      detectFinish (Rs.getD i1 0) (Rs.getD i2 0)
        (if Cs.length = Rs.length + 1 then ladderCaps Cs i1 i2 else flexCaps Cs)
  | _ => none

/-! ### Netlist parser (Double_Pi.parse_hspice_file) -/

/-- A component record `(component_name, component_type, value, node1, node2)`
as collected by `parse_hspice_file`. -/
structure SpiceComponent where
  name : String
  ctype : Char
  value : ℚ
  node1 : String
  node2 : String
deriving DecidableEq, Repr

/-- Python `str.strip()`: drop leading and trailing whitespace. -/
def stripChars (l : List Char) : List Char :=
  ((l.dropWhile Char.isWhitespace).reverse.dropWhile Char.isWhitespace).reverse

/-- Worker for `splitWsChars`; `acc` holds the current token reversed. -/
def splitWsAux : List Char → List Char → List (List Char)
  | [], acc => if acc = [] then [] else [acc.reverse]
  | c :: cs, acc =>
    if c.isWhitespace then
      if acc = [] then splitWsAux cs [] else acc.reverse :: splitWsAux cs []
    else splitWsAux cs (c :: acc)

/-- Python `str.split()` with no argument: split on runs of whitespace,
producing no empty tokens. -/
def splitWsChars (l : List Char) : List (List Char) :=
  splitWsAux l []

/-- Numeric value of a digit-character run (most significant first).
Only meaningful when every character satisfies `Char.isDigit`. -/
def digitsVal (l : List Char) : ℕ :=
  l.foldl (fun acc c => 10 * acc + (c.toNat - '0'.toNat)) 0

/-- Optional sign at the head of a token; returns the sign factor and the
remaining characters. -/
def pySign (l : List Char) : ℚ × List Char :=
  match l with
  | [] => (1, [])
  | c :: t => if c = '+' then (1, t) else if c = '-' then (-1, t) else (1, c :: t)

/-- Optional sign of an exponent part. -/
def pySignInt (l : List Char) : ℤ × List Char :=
  match l with
  | [] => (1, [])
  | c :: t => if c = '+' then (1, t) else if c = '-' then (-1, t) else (1, c :: t)

/-- Value of an integer-digits/fraction-digits pair. -/
def pyMantVal (ip fp : List Char) : ℚ :=
  (digitsVal ip : ℚ) + (digitsVal fp : ℚ) / 10 ^ fp.length

/-- Python `float(...)` on the token grammar actually exercised by the code:
optional sign, digits with an optional decimal point, and an optional
`e`/`E` exponent.  The exact rational value is returned (`inf`/`nan` and
digit-group underscores are not modelled). -/
def pyFloatChars? (l : List Char) : Option ℚ :=
  if (((pySign l).2.takeWhile (fun c => ¬ (c = 'e' ∨ c = 'E'))).takeWhile
        (fun c => ¬ c = '.')).all Char.isDigit ∧
      ((((pySign l).2.takeWhile (fun c => ¬ (c = 'e' ∨ c = 'E'))).dropWhile
        (fun c => ¬ c = '.')).drop 1).all Char.isDigit ∧
      ((((pySign l).2.takeWhile (fun c => ¬ (c = 'e' ∨ c = 'E'))).takeWhile
        (fun c => ¬ c = '.')) ≠ [] ∨
       ((((pySign l).2.takeWhile (fun c => ¬ (c = 'e' ∨ c = 'E'))).dropWhile
        (fun c => ¬ c = '.')).drop 1) ≠ []) then
    match (pySign l).2.dropWhile (fun c => ¬ (c = 'e' ∨ c = 'E')) with
    | [] =>
      some ((pySign l).1 *
        pyMantVal
          (((pySign l).2.takeWhile (fun c => ¬ (c = 'e' ∨ c = 'E'))).takeWhile
            (fun c => ¬ c = '.'))
          ((((pySign l).2.takeWhile (fun c => ¬ (c = 'e' ∨ c = 'E'))).dropWhile
            (fun c => ¬ c = '.')).drop 1))
    | _ :: e =>
      if (pySignInt e).2 ≠ [] ∧ (pySignInt e).2.all Char.isDigit then
        some ((pySign l).1 *
          pyMantVal
            (((pySign l).2.takeWhile (fun c => ¬ (c = 'e' ∨ c = 'E'))).takeWhile
              (fun c => ¬ c = '.'))
            ((((pySign l).2.takeWhile (fun c => ¬ (c = 'e' ∨ c = 'E'))).dropWhile
              (fun c => ¬ c = '.')).drop 1) *
          (10 : ℚ) ^ ((pySignInt e).1 * (digitsVal (pySignInt e).2 : ℤ)))
      else none
  else none

/-- One line of the parse loop (Double_Pi.py lines 38-52): strip, require a
leading `R`/`C`, split into ≥ 4 fields, read the value as a float. -/
def acceptLine (line : String) : Option SpiceComponent :=
  let l := stripChars line.data
  match l with
  | [] => none
  | c :: _ =>
    if c = 'R' ∨ c = 'C' then
      match splitWsChars l with
      | nm :: n1 :: n2 :: v :: _ =>
        match pyFloatChars? v with
        | some val => some ⟨⟨nm⟩, nm.headD ' ', val, ⟨n1⟩, ⟨n2⟩⟩
        | none => none
      | _ => none
    else none

/-- The records accepted by the parse loop, in file order (this is also the
content of the linked list the code builds). -/
def acceptedRecords (lines : List String) : List SpiceComponent :=
  lines.filterMap acceptLine

/-- The ladder (component type, value) sequence in file order, as stored in
the linked list and consumed by the moment engine. -/
def ladderOf (lines : List String) : List (Char × ℚ) :=
  (acceptedRecords lines).map (fun c => (c.ctype, c.value))

/-- Ordering by component name, the key of `components.sort(key=...)`. -/
def nameLe (a b : SpiceComponent) : Prop := a.name ≤ b.name

instance : DecidableRel nameLe :=
  fun a b => inferInstanceAs (Decidable (a.name ≤ b.name))

instance : IsTotal SpiceComponent nameLe := ⟨fun a b => le_total a.name b.name⟩

instance : IsTrans SpiceComponent nameLe := ⟨fun _ _ _ h1 h2 => le_trans h1 h2⟩

/-- The component list returned by `parse_hspice_file`: the accepted records
sorted by name.  Python's `list.sort` is a stable sort by the key; it is
modelled by the (stable) insertion sort on the name order. -/
def parsedComponents (lines : List String) : List SpiceComponent :=
  List.insertionSort nameLe (acceptedRecords lines)

/-- `parse_hspice_file`: returns the sorted component list together with the
`Rs` and `Cs` value lists extracted from it. -/
def parse_hspice_file (lines : List String) :
    List SpiceComponent × List ℚ × List ℚ :=
  let comps := parsedComponents lines
  (comps,
   (comps.filter (fun c => c.ctype = 'R')).map SpiceComponent.value,
   (comps.filter (fun c => c.ctype = 'C')).map SpiceComponent.value)

/-! ### Topology-aware detector (Double_Pi.detect_exact_double_pi_from_spice) -/

/-- The `(node1, node2, value)` triples of the resistor components. -/
def resistorsOf (comps : List SpiceComponent) : List (String × String × ℚ) :=
  comps.filterMap (fun c =>
    if c.ctype = 'R' then some (c.node1, c.node2, c.value) else none)

/-- Total capacitance attached to node `n` through ground capacitors: the
code files a capacitor under `node1` when `node2 = "0"`, else under `node2`
when `node1 = "0"`, and ignores it otherwise (lines 80-90). -/
def capSumAt (comps : List SpiceComponent) (n : String) : ℚ :=
  (comps.filterMap (fun c =>
    if c.ctype = 'C' then
      if c.node2 = "0" then (if c.node1 = n then some c.value else none)
      else if c.node1 = "0" then (if c.node2 = n then some c.value else none)
      else none
    else none)).sum

/-- Deduplicate keeping the first occurrence.  (Python iterates a `set` here;
its order is implementation defined, so the embedding fixes first-appearance
order.) -/
def dedupFirst : List String → List String
  | [] => []
  | a :: t => a :: (dedupFirst t).filter (fun b => b ≠ a)

/-- One pass of the `while changed` loop of `find_connected_nodes`: scan the
zero-ohm resistors in order and extend the connected set. -/
def growOnce (zero : List (String × String × ℚ)) (conn : List String) : List String :=
  zero.foldl (fun acc r =>
    if r.1 ∈ acc ∧ r.2.1 ∉ acc then acc ++ [r.2.1]
    else if r.2.1 ∈ acc ∧ r.1 ∉ acc then acc ++ [r.1]
    else acc) conn

/-- Iterate `growOnce`. -/
def iterGrow (zero : List (String × String × ℚ)) : ℕ → List String → List String
  | 0, conn => conn
  | n + 1, conn => iterGrow zero n (growOnce zero conn)

/-- `find_connected_nodes(start)`: the zero-ohm connected component of
`start`.  The Python loop runs until a pass adds nothing; since each earlier
pass adds at least one of the (at most `2·|zero|`) endpoint names, running
`2·|zero| + 1` passes reaches the same fixpoint. -/
def findConnectedNodes (zero : List (String × String × ℚ)) (start : String) :
    List String :=
  iterGrow zero (2 * zero.length + 1) [start]

/-- `all_nodes`: the non-ground endpoints of all resistors. -/
def allNodesOf (rs : List (String × String × ℚ)) : List String :=
  dedupFirst ((rs.flatMap (fun r => [r.1, r.2.1])).filter (fun n => n ≠ "0"))

/-- The zero-ohm supernode groups, in first-appearance order of their nodes
(state is `(visited, groups)`). -/
def buildGroups (zero : List (String × String × ℚ)) (nodes : List String) :
    List (List String) :=
  (nodes.foldl (fun (st : List String × List (List String)) node =>
    if node ∈ st.1 then st
    else
      let g := (findConnectedNodes zero node).filter (fun n => n ≠ "0")
      if g = [] then st
      else (st.1 ++ g, st.2 ++ [g])) ([], [])).2

/-- Does resistor `r` connect group `g1` to group `g2`? -/
def connectsB (g1 g2 : List String) (r : String × String × ℚ) : Bool :=
  (decide (r.1 ∈ g1) && decide (r.2.1 ∈ g2)) ||
    (decide (r.2.1 ∈ g1) && decide (r.1 ∈ g2))

/-- Degree of group `i` in the supernode adjacency built from the non-zero
resistors (the code stores `(j, r_val)` pairs; only their number is used). -/
def adjDeg (groups : List (List String)) (nonzero : List (String × String × ℚ))
    (i : ℕ) : ℕ :=
  (nonzero.flatMap (fun r =>
    ((List.range groups.length).filter (fun j =>
      decide (j ≠ i) && connectsB (groups.getD i []) (groups.getD j []) r)).map
      (fun j => (j, r.2.2)))).length

/-- Selection of start/middle/end groups (Double_Pi.py lines 169-178): the
last group of degree 2 is the middle; the first group of degree 1 is the
start and every later degree-1 group overwrites the end. -/
def pickSME (degs : List ℕ) : Option ℕ × Option ℕ × Option ℕ :=
  (List.range degs.length).foldl (fun (st : Option ℕ × Option ℕ × Option ℕ) i =>
    let d := degs.getD i 0
    if d = 2 then (st.1, some i, st.2.2)
    else if d = 1 then
      match st.1 with
      | none => (some i, st.2.1, st.2.2)
      | some _ => (st.1, st.2.1, some i)
    else st) (none, none, none)

/-- Extraction of `R1`, `R2` (Double_Pi.py lines 187-198): the last non-zero
resistor joining start and middle gives `R1`, otherwise the last joining
middle and end gives `R2`. -/
def pickR1R2 (gs gm ge : List String) (nonzero : List (String × String × ℚ)) :
    Option ℚ × Option ℚ :=
  nonzero.foldl (fun (st : Option ℚ × Option ℚ) r =>
    if connectsB gs gm r then (some r.2.2, st.2)
    else if connectsB gm ge r then (st.1, some r.2.2)
    else st) (none, none)

/-- The non-zero resistors (`|R| ≥ 1e-12`). -/
def nonzeroResistors (rs : List (String × String × ℚ)) : List (String × String × ℚ) :=
  rs.filter (fun r => decide (1 / 10 ^ 12 ≤ |r.2.2|))

/-- The zero-ohm resistors (`|R| < 1e-12`). -/
def zeroResistors (rs : List (String × String × ℚ)) : List (String × String × ℚ) :=
  rs.filter (fun r => decide (|r.2.2| < 1 / 10 ^ 12))

/-- The supernode groups of the resistor list. -/
def groupsOf (rs : List (String × String × ℚ)) : List (List String) :=
  buildGroups (zeroResistors rs) (allNodesOf rs)

/-- The capacitance sum of group `i` (`group_caps[i][1]`; 0 for an invalid
index, which never occurs in the code's uses). -/
def groupCap (groups : List (List String)) (capAt : String → ℚ) (i : ℕ) : ℚ :=
  ((groups.getD i []).map capAt).sum

/-- Resistor extraction and the final positivity filter, once the start,
middle and end groups are chosen. -/
def detectAssemble (groups : List (List String))
    (nonzero : List (String × String × ℚ)) (capAt : String → ℚ) (s m e : ℕ) :
    Option (ℚ × ℚ × ℚ × ℚ × ℚ) :=
  match pickR1R2 (groups.getD s []) (groups.getD m []) (groups.getD e []) nonzero with
  | (some R1, some R2) =>
    if 0 < R1 ∧ 0 < R2 ∧ 0 ≤ groupCap groups capAt s ∧ 0 ≤ groupCap groups capAt m ∧
        0 ≤ groupCap groups capAt e then
      some (R1, R2, groupCap groups capAt s, groupCap groups capAt m,
        groupCap groups capAt e)
    else none
  | _ => none

/-- The path-recognition stage: compute the adjacency degrees, pick the
start/middle/end groups and assemble the result. -/
def detectPath (groups : List (List String))
    (nonzero : List (String × String × ℚ)) (capAt : String → ℚ) :
    Option (ℚ × ℚ × ℚ × ℚ × ℚ) :=
  match pickSME ((List.range groups.length).map (adjDeg groups nonzero)) with
  | (some s, some m, some e) => detectAssemble groups nonzero capAt s m e
  | _ => none

/-- Core of `detect_exact_double_pi_from_spice`, parameterized by the
resistor triples and the per-node ground-capacitance sums. -/
def detectCore (rs : List (String × String × ℚ)) (capAt : String → ℚ) :
    Option (ℚ × ℚ × ℚ × ℚ × ℚ) :=
  if (nonzeroResistors rs).length ≠ 2 then none
  else detectPath (groupsOf rs) (nonzeroResistors rs) capAt

/-- `detect_exact_double_pi_from_spice(components)`. -/
def detect_exact_double_pi_from_spice (comps : List SpiceComponent) :
    Option (ℚ × ℚ × ℚ × ℚ × ℚ) :=
  detectCore (resistorsOf comps) (capSumAt comps)

/-! ### Reduced-model emitter (Double_Pi.generate_double_pi_spice_file)

The emitter writes the five R/C record lines with `f"... {value:.6g}"`.
The `%.6g` formatting of a (here exact-rational) value is modelled by
`fmt6`: round to 6 significant decimal digits (ties away from zero is not
observable through the claims; `round`, i.e. half-up, is used), then print
in fixed notation when the decimal exponent lies in `[-4, 5]` and in
scientific notation otherwise, stripping trailing zeros of the fraction. -/

/-- Fuel-driven base-10 logarithm (digit count minus one). -/
def log10Aux : ℕ → ℕ → ℕ
  | 0, _ => 0
  | fuel + 1, n => if n < 10 then 0 else log10Aux fuel (n / 10) + 1

/-- Base-10 logarithm of a positive natural. -/
def log10 (n : ℕ) : ℕ :=
  log10Aux n n

/-- Decimal exponent of a positive rational: the unique `e` with
`10^e ≤ q < 10^(e+1)`, computed from the digit counts of numerator and
denominator. -/
def sigExp (q : ℚ) : ℤ :=
  if (10 : ℚ) ^ ((log10 q.num.natAbs : ℤ) - (log10 q.den : ℤ)) ≤ q then
    (log10 q.num.natAbs : ℤ) - (log10 q.den : ℤ)
  else (log10 q.num.natAbs : ℤ) - (log10 q.den : ℤ) - 1

/-- Mantissa (6 decimal digits, `10^5 ≤ m < 10^6`) and decimal exponent of
the 6-significant-digit rounding of a positive rational. -/
def mant6 (q : ℚ) : ℕ × ℤ :=
  if round (q / (10 : ℚ) ^ (sigExp q - 5)) = 10 ^ 6 then (10 ^ 5, sigExp q + 1)
  else ((round (q / (10 : ℚ) ^ (sigExp q - 5))).toNat, sigExp q)

/-- The value recovered after 6-significant-digit rounding. -/
def val6 (q : ℚ) : ℚ := ((mant6 q).1 : ℚ) * (10 : ℚ) ^ ((mant6 q).2 - 5)

/-- Fuel-driven decimal digit extraction, most significant first. -/
def natDigitsAux : ℕ → ℕ → List Char
  | 0, _ => []
  | fuel + 1, n =>
    if n = 0 then [] else natDigitsAux fuel (n / 10) ++ [Nat.digitChar (n % 10)]

/-- Decimal digit characters of `n`, most significant first (`[]` for 0). -/
def natDigitsStr (n : ℕ) : List Char :=
  natDigitsAux n n

/-- Decimal rendering of `n` (`"0"` for 0). -/
def natRender (n : ℕ) : List Char :=
  if n = 0 then ['0'] else natDigitsStr n

/-- Left-pad a digit string with zeros to width `w`. -/
def padLeftZeros (w : ℕ) (ds : List Char) : List Char :=
  List.replicate (w - ds.length) '0' ++ ds

/-- Strip trailing `'0'` characters (the `%g` zero stripping). -/
def stripTrailingZeros (ds : List Char) : List Char :=
  (ds.reverse.dropWhile (fun c => c = '0')).reverse

/-- The fraction digits of mantissa `m` printed with `w` fraction places,
after zero stripping. -/
def fracDigitsFixed (m w : ℕ) : List Char :=
  stripTrailingZeros (padLeftZeros w (natDigitsStr (m % 10 ^ w)))

/-- Fixed-notation rendering (`-4 ≤ E ≤ 5`). -/
def fmt6Fixed (m : ℕ) (E : ℤ) : List Char :=
  natRender (m / 10 ^ (5 - E).toNat) ++
    (if fracDigitsFixed m (5 - E).toNat = [] then []
     else '.' :: fracDigitsFixed m (5 - E).toNat)

/-- Scientific-notation rendering (`E < -4` or `E ≥ 6`). -/
def fmt6Sci (m : ℕ) (E : ℤ) : List Char :=
  natRender (m / 10 ^ 5) ++
    (if fracDigitsFixed m 5 = [] then [] else '.' :: fracDigitsFixed m 5) ++
    'e' :: (if E < 0 then '-' else '+') :: padLeftZeros 2 (natDigitsStr E.natAbs)

/-- `%.6g` of a positive rational. -/
def fmt6 (q : ℚ) : List Char :=
  if (mant6 q).2 < -4 ∨ 6 ≤ (mant6 q).2 then fmt6Sci (mant6 q).1 (mant6 q).2
  else fmt6Fixed (mant6 q).1 (mant6 q).2

/-- One emitted R/C record line `f"{name} {n1} {n2} {v:.6g}"`. -/
def emitLine (name n1 n2 : String) (v : ℚ) : String :=
  ⟨name.data ++ ' ' :: (n1.data ++ ' ' :: (n2.data ++ ' ' :: fmt6 v))⟩

/-- The five Double-Pi R/C record lines written by
`generate_double_pi_spice_file` (Double_Pi.py lines 482-486). -/
def emit_double_pi_rc_lines (startNode : String) (R1 R2 C1 C2 C3 : ℚ) :
    List String :=
  [emitLine "R1" startNode "2" R1,
   emitLine "R2" "2" "3" R2,
   emitLine "C1" startNode "0" C1,
   emitLine "C2" "2" "0" C2,
   emitLine "C3" "3" "0" C3]

end RCTiming

namespace RCTiming

/-! ## Theorems -/

/-- A capacitor-only fold only accumulates into `y1`. -/
theorem momentUpdate_caps_only (l : List (Char × ℚ)) (hC : ∀ p ∈ l, p.1 = 'C') :
    ∀ y1 : ℚ, l.foldl momentUpdate (y1, 0, 0, 0, 0) =
      (y1 + (l.map Prod.snd).sum, 0, 0, 0, 0) := by
  induction l with
  | nil => intro y1; simp
  | cons p t ih =>
    intro y1
    have hp : p.1 = 'C' := hC p (List.mem_cons_self ..)
    have ht : ∀ q ∈ t, q.1 = 'C' := fun q hq => hC q (List.mem_cons_of_mem _ hq)
    simp only [List.foldl_cons, momentUpdate, hp, if_pos]
    rw [ih ht]
    simp [add_assoc]

/-- C3: in both moment engines every resistor step realizes exactly the
snapshot formulas: each right-hand side uses the pre-update values of the
moments.  For `Double_Pi.apply_rules_reverse_linked_list` this is literal;
for `PI_MODEL.apply_rules` the in-place update of `YU_3` (which reads the
already-updated `YU_2`) algebraically equals the same pre-update formula
`y3 - 2 R y1 y2 + R^2 y1^3`. -/
theorem resistor_step_uses_preupdate_values (R y1 y2 y3 y4 y5 u1 u2 u3 : ℚ) :
    momentResStep R y1 y2 y3 y4 y5 =
      (y1,
       y2 - R * y1 ^ 2,
       y3 - 2 * R * y1 * y2 + R ^ 2 * y1 ^ 3,
       y4 - R * (2 * y1 * y3 + y2 ^ 2) + 3 * R ^ 2 * y1 ^ 2 * y2 - R ^ 3 * y1 ^ 4,
       y5 - R * (2 * y1 * y4 + 2 * y2 * y3)
         + R ^ 2 * (3 * y1 ^ 2 * y3 + 3 * y1 * y2 ^ 2)
         - 4 * R ^ 3 * y1 ^ 3 * y2 + R ^ 4 * y1 ^ 5) ∧
    piResStep R u1 u2 u3 =
      (u1, u2 - R * u1 ^ 2, u3 - 2 * R * u1 * u2 + R ^ 2 * u1 ^ 3) := by
  refine ⟨rfl, ?_⟩
  unfold piResStep
  refine Prod.ext rfl (Prod.ext rfl ?_)
  ring

/-- C7: a ladder containing only capacitors yields the moment vector
`(ΣC, 0, 0, 0, 0)`. -/
theorem capacitor_only_moments (comps : List (Char × ℚ))
    (hC : ∀ p ∈ comps, p.1 = 'C') :
    apply_rules_reverse_linked_list comps = ((comps.map Prod.snd).sum, 0, 0, 0, 0) := by
  unfold apply_rules_reverse_linked_list
  have h' : ∀ p ∈ comps.reverse, p.1 = 'C' := fun p hp => hC p (List.mem_reverse.mp hp)
  rw [momentUpdate_caps_only _ h' 0]
  rw [List.map_reverse, List.sum_reverse]
  simp

/-- Witness for C7 at the concrete two-capacitor ladder `[C 1, C 2]`. -/
theorem capacitor_only_moments_witness :
    apply_rules_reverse_linked_list [('C', 1), ('C', 2)] = (3, 0, 0, 0, 0) := by
  rw [capacitor_only_moments [('C', 1), ('C', 2)] (by decide)]
  norm_num

/-- C8 counterexample: the two-capacitor ladder `[C 1, C 2]` has two
components yet its moment vector is unchanged under reversal, contradicting
the claim that reversal changes the vector for every ladder with ≥ 2
components. -/
theorem reversal_invariant_two_component_ladder :
    2 ≤ ([(('C' : Char), (1 : ℚ)), ('C', 2)] : List (Char × ℚ)).length ∧
      apply_rules_reverse_linked_list [('C', 1), ('C', 2)] =
        apply_rules_reverse_linked_list ([(('C' : Char), (1 : ℚ)), ('C', 2)].reverse) := by
  constructor
  · simp
  · with_unfolding_all decide

/-- C8 amended: reversing the order can change the moment vector for a
multi-component ladder (witnessed by the resistor-capacitor pair `[R 1, C 1]`),
and the vector of a one-component ladder is always invariant under reversal;
but reversal invariance can also hold for particular multi-component ladders. -/
theorem reversal_order_dependence :
    (∀ c : Char × ℚ,
      apply_rules_reverse_linked_list [c] = apply_rules_reverse_linked_list [c].reverse) ∧
    apply_rules_reverse_linked_list [(('R' : Char), (1 : ℚ)), ('C', 1)] ≠
      apply_rules_reverse_linked_list ([(('R' : Char), (1 : ℚ)), ('C', 1)].reverse) := by
  constructor
  · intro c; rfl
  · with_unfolding_all decide

/-! ### Scan lemmas for the optimizer -/

/-- A fold whose steps never change the accumulator returns it unchanged. -/
theorem foldl_eq_init {α β : Type} (f : β → α → β) (l : List α)
    (h : ∀ x ∈ l, ∀ b, f b x = b) : ∀ b, l.foldl f b = b := by
  induction l with
  | nil => intro b; rfl
  | cons x t ih =>
    intro b
    rw [List.foldl_cons, h x (List.mem_cons_self ..)]
    exact ih (fun y hy => h y (List.mem_cons_of_mem _ hy)) b

/-- A fold preserves any invariant preserved by each step. -/
theorem foldl_pres {α β : Type} (f : β → α → β) (l : List α) (P : β → Prop)
    (h : ∀ x ∈ l, ∀ b, P b → P (f b x)) : ∀ b, P b → P (l.foldl f b) := by
  induction l with
  | nil => intro b hb; exact hb
  | cons x t ih =>
    intro b hb
    rw [List.foldl_cons]
    exact ih (fun y hy => h y (List.mem_cons_of_mem _ hy)) _
      (h x (List.mem_cons_self ..) b hb)

theorem alphaAt_pos (i : ℕ) : 0 < alphaAt i := by
  unfold alphaAt
  have h1 : (0 : ℚ) ≤ (i : ℚ) / 1199 := by positivity
  have hc : (0 : ℚ) < 1 / 2 - 2 / 10 ^ 6 := by norm_num
  nlinarith

theorem alphaAt_le (i : ℕ) (h : i ≤ 1199) : alphaAt i ≤ 1 / 2 - 1 / 10 ^ 6 := by
  unfold alphaAt
  have hx : (i : ℚ) / 1199 ≤ 1 := by
    rw [div_le_one (by norm_num)]
    exact_mod_cast h
  have h0 : (0 : ℚ) ≤ (i : ℚ) / 1199 := by positivity
  have hc : (0 : ℚ) < 1 / 2 - 2 / 10 ^ 6 := by norm_num
  nlinarith

theorem alphaAt_ge_one (i : ℕ) (h : 1 ≤ i) : 3 / 10 ^ 4 ≤ alphaAt i := by
  unfold alphaAt
  have hx : (1 : ℚ) / 1199 ≤ (i : ℚ) / 1199 := by
    apply div_le_div_of_nonneg_right ?_ (by norm_num)
    · exact_mod_cast h
  have hc : (0 : ℚ) < 1 / 2 - 2 / 10 ^ 6 := by norm_num
  nlinarith

theorem betaFromAlpha_at (k1 : ℚ) (i : ℕ) (h : i ≤ 1199) :
    betaFromAlpha k1 (alphaAt i) =
      some ((k1 - alphaAt i ^ 2) / (1 - 2 * alphaAt i)) := by
  have hle := alphaAt_le i h
  unfold betaFromAlpha
  rw [if_neg]
  rw [not_lt, abs_of_pos (by linarith)]
  linarith

theorem scanStep_id_of_k1_nonpos (k1 k2t : ℚ) (hk : k1 ≤ 0) (b : Option (ℚ × ℚ × ℚ))
    (i : ℕ) (h : i ≤ 1199) : scanStep k1 k2t b i = b := by
  have hp := alphaAt_pos i
  have hle := alphaAt_le i h
  have hβ : (k1 - alphaAt i ^ 2) / (1 - 2 * alphaAt i) ≤ 0 := by
    apply div_nonpos_of_nonpos_of_nonneg
    · nlinarith
    · linarith
  unfold scanStep
  rw [betaFromAlpha_at k1 i h]
  exact if_pos (fun hcon => absurd hcon.1 (not_lt.mpr hβ))

/-- For `k1 = 0.9997²` every scan sample with `i ≥ 1` yields `beta ≥ 1` and
is discarded. -/
theorem scanStep_id_big (k2t : ℚ) (b : Option (ℚ × ℚ × ℚ)) (i : ℕ)
    (h1 : 1 ≤ i) (h2 : i ≤ 1199) :
    scanStep (99940009 / 10 ^ 8) k2t b i = b := by
  have hge := alphaAt_ge_one i h1
  have hle := alphaAt_le i h2
  have hd : 0 < 1 - 2 * alphaAt i := by linarith
  have hβ : 1 ≤ (99940009 / 10 ^ 8 - alphaAt i ^ 2) / (1 - 2 * alphaAt i) := by
    rw [le_div_iff₀ hd]
    nlinarith
  unfold scanStep
  rw [betaFromAlpha_at _ i h2]
  exact if_pos (fun hcon => absurd hcon.2 (not_lt.mpr hβ))

/-- When all samples `1 ≤ i ≤ 1199` are discarded, the scan result is the
result of the first sample alone. -/
theorem bestCandidate_eq_step0 (k1 k2t : ℚ)
    (h : ∀ i, 1 ≤ i → i ≤ 1199 → ∀ b, scanStep k1 k2t b i = b) :
    bestCandidate k1 k2t = scanStep k1 k2t none 0 := by
  unfold bestCandidate
  rw [show (1200 : ℕ) = 1199 + 1 from rfl, List.range_succ_eq_map, List.foldl_cons]
  apply foldl_eq_init
  intro x hx b
  obtain ⟨i, hi, rfl⟩ := List.mem_map.mp hx
  exact h _ (Nat.succ_le_succ (Nat.zero_le _))
    (Nat.succ_le_of_lt (List.mem_range.mp hi)) b

theorem bestCandidate_none_of_k1_nonpos (k1 k2t : ℚ) (hk : k1 ≤ 0) :
    bestCandidate k1 k2t = none := by
  rw [bestCandidate_eq_step0 k1 k2t
    (fun i _ h2 b => scanStep_id_of_k1_nonpos k1 k2t hk b i h2)]
  exact scanStep_id_of_k1_nonpos k1 k2t hk none 0 (by norm_num)

theorem alphaAt_zero : alphaAt 0 = 1 / 10 ^ 6 := by
  unfold alphaAt; norm_num

/-- Concrete scan evaluation used by the C4 counterexample: with
`k1 = 0.9997²` and target `k2 = 1000` only sample `i = 0` is feasible. -/
theorem bestCandidate_big1000 :
    bestCandidate (99940009 / 10 ^ 8) 1000 =
      some (|k2from (1 / 10 ^ 6) (999400089999 / 999998000000) - 1000|,
        1 / 10 ^ 6, 999400089999 / 999998000000) := by
  rw [bestCandidate_eq_step0 _ _ (fun i h1 h2 b => scanStep_id_big 1000 b i h1 h2)]
  have hb : (99940009 / 10 ^ 8 - alphaAt 0 ^ 2) / (1 - 2 * alphaAt 0) =
      999400089999 / 999998000000 := by
    rw [alphaAt_zero]; norm_num
  unfold scanStep
  rw [betaFromAlpha_at _ 0 (by norm_num), hb, alphaAt_zero]
  norm_num

/-- Any candidate produced by the scan has `alpha` in the sampled range and
`beta` strictly between 0 and 1. -/
theorem bestCandidate_bounds (k1 k2t e a b : ℚ)
    (h : bestCandidate k1 k2t = some (e, a, b)) :
    0 < a ∧ a ≤ 1 / 2 - 1 / 10 ^ 6 ∧ 0 < b ∧ b < 1 := by
  have key := foldl_pres (scanStep k1 k2t) (List.range 1200)
    (fun acc => ∀ e₀ a₀ b₀, acc = some (e₀, a₀, b₀) →
      0 < a₀ ∧ a₀ ≤ 1 / 2 - 1 / 10 ^ 6 ∧ 0 < b₀ ∧ b₀ < 1) ?_ none
    (by intro e₀ a₀ b₀ hco; cases hco)
  · exact key e a b h
  · intro i hi acc hacc
    have hi' : i ≤ 1199 := Nat.lt_succ_iff.mp (List.mem_range.mp hi)
    set β := (k1 - alphaAt i ^ 2) / (1 - 2 * alphaAt i) with hβdef
    have hnew : ∀ err e₁ a₁ b₁, 0 < β → β < 1 →
        (some (err, alphaAt i, β) : Option (ℚ × ℚ × ℚ)) = some (e₁, a₁, b₁) →
        0 < a₁ ∧ a₁ ≤ 1 / 2 - 1 / 10 ^ 6 ∧ 0 < b₁ ∧ b₁ < 1 := by
      intro err e₁ a₁ b₁ hb0 hb1 heq
      have h' := Option.some.inj heq
      rw [Prod.mk.injEq, Prod.mk.injEq] at h'
      obtain ⟨-, ha, hb⟩ := h'
      exact ⟨ha ▸ alphaAt_pos i, ha ▸ alphaAt_le i hi', hb ▸ hb0, hb ▸ hb1⟩
    intro e₁ a₁ b₁ heq
    unfold scanStep at heq
    rw [betaFromAlpha_at k1 i hi', ← hβdef] at heq
    rcases acc with _ | ⟨e₀, a₀, b₀⟩
    · have heq' : (if ¬ (0 < β ∧ β < 1) then (none : Option (ℚ × ℚ × ℚ))
          else if 1 - 2 * alphaAt i < 0 then none
          else some (|k2from (alphaAt i) β - k2t|, alphaAt i, β)) =
          some (e₁, a₁, b₁) := heq
      by_cases hfeas : (0 < β ∧ β < 1)
      · rw [if_neg (not_not_intro hfeas)] at heq'
        by_cases hneg : 1 - 2 * alphaAt i < 0
        · rw [if_pos hneg] at heq'
          exact nomatch heq'
        · rw [if_neg hneg] at heq'
          exact hnew _ e₁ a₁ b₁ hfeas.1 hfeas.2 heq'
      · rw [if_pos hfeas] at heq'
        exact nomatch heq'
    · have heq' : (if ¬ (0 < β ∧ β < 1) then some (e₀, a₀, b₀)
          else if 1 - 2 * alphaAt i < 0 then some (e₀, a₀, b₀)
          else if |k2from (alphaAt i) β - k2t| < e₀ then
            some (|k2from (alphaAt i) β - k2t|, alphaAt i, β)
          else some (e₀, a₀, b₀)) = some (e₁, a₁, b₁) := heq
      by_cases hfeas : (0 < β ∧ β < 1)
      · rw [if_neg (not_not_intro hfeas)] at heq'
        by_cases hneg : 1 - 2 * alphaAt i < 0
        · rw [if_pos hneg] at heq'
          exact hacc e₁ a₁ b₁ heq'
        · rw [if_neg hneg] at heq'
          by_cases herr : |k2from (alphaAt i) β - k2t| < e₀
          · rw [if_pos herr] at heq'
            exact hnew _ e₁ a₁ b₁ hfeas.1 hfeas.2 heq'
          · rw [if_neg herr] at heq'
            exact hacc e₁ a₁ b₁ heq'
      · rw [if_pos hfeas] at heq'
        exact hacc e₁ a₁ b₁ heq'

/-! ### Optimizer assembly lemmas -/

theorem solveABF_bounds (k1 k2t : ℚ) :
    0 < (solveABF k1 k2t).1 ∧ (solveABF k1 k2t).1 ≤ 1 / 2 - 1 / 10 ^ 6 ∧
      0 < (solveABF k1 k2t).2.1 ∧ (solveABF k1 k2t).2.1 < 1 := by
  unfold solveABF
  rcases hbc : bestCandidate k1 k2t with _ | ⟨e, a, b⟩
  · norm_num
  · have hb := bestCandidate_bounds k1 k2t e a b hbc
    simpa using hb

theorem solveFrom_pos (Rt Ct : ℚ) (hR : 0 < Rt) (hC : 0 < Ct) (abf : ℚ × ℚ × Bool)
    (ha0 : 0 < abf.1) (ha1 : abf.1 ≤ 1 / 2 - 1 / 10 ^ 6)
    (hb0 : 0 < abf.2.1) (hb1 : abf.2.1 < 1)
    (r1 r2 c1 c2 c3 : ℚ) (uf : Bool)
    (h : solveFrom Rt Ct abf = (r1, r2, c1, c2, c3, uf)) :
    0 < r1 ∧ 0 < r2 ∧ 0 < c1 ∧ 0 < c2 ∧ 0 < c3 := by
  have hC1 : 0 < abf.1 * Ct := mul_pos ha0 hC
  have hC2 : 0 < (1 - 2 * abf.1) * Ct := mul_pos (by linarith) hC
  have hR1 : 0 < abf.2.1 * Rt := mul_pos hb0 hR
  have hR2 : 0 < (1 - abf.2.1) * Rt := mul_pos (by linarith) hR
  unfold solveFrom at h
  rw [if_neg (by push_neg; exact ⟨hC1, hC2.le, hC1, hR1, hR2⟩)] at h
  rw [Prod.mk.injEq, Prod.mk.injEq, Prod.mk.injEq, Prod.mk.injEq, Prod.mk.injEq] at h
  obtain ⟨h1, h2, h3, h4, h5, -⟩ := h
  exact ⟨h1 ▸ hR1, h2 ▸ hR2, h3 ▸ hC1, h4 ▸ hC2, h5 ▸ hC1⟩

theorem solveFrom_canonical (Rt Ct : ℚ) (hR : 0 < Rt) (hC : 0 < Ct) :
    solveFrom Rt Ct (1 / 4, 1 / 2, true) =
      (1 / 2 * Rt, 1 / 2 * Rt, 1 / 4 * Ct, 1 / 2 * Ct, 1 / 4 * Ct, true) := by
  unfold solveFrom
  rw [if_neg]
  · norm_num
  · show ¬ ((1 : ℚ) / 4 * Ct ≤ 0 ∨ (1 - 2 * (1 / 4)) * Ct < 0 ∨ (1 : ℚ) / 4 * Ct ≤ 0 ∨
      (1 : ℚ) / 2 * Rt ≤ 0 ∨ (1 - 1 / 2) * Rt ≤ 0)
    push_neg
    refine ⟨by linarith, by linarith, by linarith, by linarith, by linarith⟩

theorem solveCore_of_none (Rt Ct m1 m2 : ℚ)
    (hnone : bestCandidate (-m1 / (Rt * Ct * Ct)) (m2 / (Rt * Rt * Ct * Ct * Ct)) = none) :
    solveCore Rt Ct m1 m2 = solveFrom Rt Ct (1 / 4, 1 / 2, true) := by
  unfold solveCore solveABF
  rw [hnone]

/-- Evaluation of the optimizer at `(1, 1, 0, 1)`: `k1 = 0` makes every scan
sample infeasible, so the canonical fallback partition is returned. -/
theorem solve_one_eval :
    solve_double_pi_symmetric 1 1 0 1 = some (1 / 2, 1 / 2, 1 / 4, 1 / 2, 1 / 4, true) := by
  unfold solve_double_pi_symmetric
  rw [if_neg (by norm_num)]
  have hn : bestCandidate (-0 / ((1 : ℚ) * 1 * 1)) ((1 : ℚ) / (1 * 1 * 1 * 1 * 1)) = none :=
    bestCandidate_none_of_k1_nonpos _ _ (by norm_num)
  rw [solveCore_of_none 1 1 0 1 hn, solveFrom_canonical 1 1 (by norm_num) (by norm_num)]
  norm_num

theorem solveABF_big1000 :
    solveABF (99940009 / 10 ^ 8) 1000 =
      (1 / 10 ^ 6, 999400089999 / 999998000000, true) := by
  have hk2 : k2from (1 / 10 ^ 6) (999400089999 / 999998000000) < 2 := by
    unfold k2from; norm_num
  have herr : (1 : ℚ) / 10 ^ 10 <
      |k2from (1 / 10 ^ 6) (999400089999 / 999998000000) - 1000| := by
    rw [abs_of_neg (by linarith)]
    linarith
  unfold solveABF
  rw [bestCandidate_big1000]
  simp only [decide_eq_true herr]

/-! ### Detector sign lemmas -/

theorem detectFinish_sign (R1 R2 : ℚ) (caps : ℚ × ℚ × ℚ) (r1 r2 c1 c2 c3 : ℚ)
    (h : detectFinish R1 R2 caps = some (r1, r2, c1, c2, c3)) :
    0 < r1 ∧ 0 < r2 ∧ 0 ≤ c1 ∧ 0 ≤ c2 ∧ 0 ≤ c3 := by
  unfold detectFinish at h
  by_cases hc : R1 ≤ 0 ∨ R2 ≤ 0 ∨ caps.1 < 0 ∨ caps.2.1 < 0 ∨ caps.2.2 < 0
  · rw [if_pos hc] at h
    exact nomatch h
  · rw [if_neg hc] at h
    push_neg at hc
    obtain ⟨h1, h2, h3, h4, h5⟩ := hc
    have h' := Option.some.inj h
    rw [Prod.mk.injEq, Prod.mk.injEq, Prod.mk.injEq, Prod.mk.injEq] at h'
    obtain ⟨e1, e2, e3, e4, e5⟩ := h'
    exact ⟨e1 ▸ h1, e2 ▸ h2, e3 ▸ h3, e4 ▸ h4, e5 ▸ h5⟩

theorem detect_array_sign (Rs Cs : List ℚ) (r1 r2 c1 c2 c3 : ℚ)
    (h : detect_exact_double_pi Rs Cs = some (r1, r2, c1, c2, c3)) :
    0 < r1 ∧ 0 < r2 ∧ 0 ≤ c1 ∧ 0 ≤ c2 ∧ 0 ≤ c3 := by
  unfold detect_exact_double_pi at h
  rcases hnz : nzIndices Rs with _ | ⟨i1, _ | ⟨i2, _ | ⟨i3, t⟩⟩⟩ <;> rw [hnz] at h
  · exact nomatch h
  · exact nomatch h
  · have h' : (if Cs.length < 3 then none
        else detectFinish (Rs.getD i1 0) (Rs.getD i2 0)
          (if Cs.length = Rs.length + 1 then ladderCaps Cs i1 i2 else flexCaps Cs)) =
        some (r1, r2, c1, c2, c3) := h
    by_cases hlen : Cs.length < 3
    · rw [if_pos hlen] at h'
      exact nomatch h'
    · rw [if_neg hlen] at h'
      exact detectFinish_sign _ _ _ _ _ _ _ _ h'
  · exact nomatch h

theorem detectAssemble_sign (groups : List (List String))
    (nonzero : List (String × String × ℚ)) (capAt : String → ℚ) (s m e : ℕ)
    (r1 r2 c1 c2 c3 : ℚ)
    (h : detectAssemble groups nonzero capAt s m e = some (r1, r2, c1, c2, c3)) :
    0 < r1 ∧ 0 < r2 ∧ 0 ≤ c1 ∧ 0 ≤ c2 ∧ 0 ≤ c3 := by
  unfold detectAssemble at h
  rcases hrr : pickR1R2 (groups.getD s []) (groups.getD m []) (groups.getD e []) nonzero
    with ⟨_ | R1, _ | R2⟩ <;> rw [hrr] at h
  · exact nomatch h
  · exact nomatch h
  · exact nomatch h
  · have h' : (if 0 < R1 ∧ 0 < R2 ∧ 0 ≤ groupCap groups capAt s ∧
        0 ≤ groupCap groups capAt m ∧ 0 ≤ groupCap groups capAt e then
        some (R1, R2, groupCap groups capAt s, groupCap groups capAt m,
          groupCap groups capAt e)
      else none) = some (r1, r2, c1, c2, c3) := h
    by_cases hc : 0 < R1 ∧ 0 < R2 ∧ 0 ≤ groupCap groups capAt s ∧
        0 ≤ groupCap groups capAt m ∧ 0 ≤ groupCap groups capAt e
    · rw [if_pos hc] at h'
      have h'' := Option.some.inj h'
      rw [Prod.mk.injEq, Prod.mk.injEq, Prod.mk.injEq, Prod.mk.injEq] at h''
      obtain ⟨e1, e2, e3, e4, e5⟩ := h''
      exact ⟨e1 ▸ hc.1, e2 ▸ hc.2.1, e3 ▸ hc.2.2.1, e4 ▸ hc.2.2.2.1, e5 ▸ hc.2.2.2.2⟩
    · rw [if_neg hc] at h'
      exact nomatch h'

theorem detect_spice_sign (comps : List SpiceComponent) (r1 r2 c1 c2 c3 : ℚ)
    (h : detect_exact_double_pi_from_spice comps = some (r1, r2, c1, c2, c3)) :
    0 < r1 ∧ 0 < r2 ∧ 0 ≤ c1 ∧ 0 ≤ c2 ∧ 0 ≤ c3 := by
  unfold detect_exact_double_pi_from_spice detectCore at h
  by_cases hn : (nonzeroResistors (resistorsOf comps)).length ≠ 2
  · rw [if_pos hn] at h
    exact nomatch h
  · rw [if_neg hn] at h
    unfold detectPath at h
    rcases hsme : pickSME ((List.range (groupsOf (resistorsOf comps)).length).map
        (adjDeg (groupsOf (resistorsOf comps)) (nonzeroResistors (resistorsOf comps))))
      with ⟨_ | s, ms, me⟩
    · rw [hsme] at h
      rcases ms with _ | m <;> rcases me with _ | e <;> exact nomatch h
    · rcases ms with _ | m
      · rw [hsme] at h
        rcases me with _ | e <;> exact nomatch h
      · rcases me with _ | e
        · rw [hsme] at h
          exact nomatch h
        · rw [hsme] at h
          exact detectAssemble_sign _ _ _ _ _ _ _ _ _ _ _ h

/-! ## Claim theorems for the optimizer and detectors -/

/-- C1 (amended): every model returned by either exact detector has strictly
positive resistances and non-negative (possibly zero) capacitances, and every
model returned by the moment-matching optimizer has all five values strictly
positive.  (The claim's strict positivity of the capacitances fails for the
detectors, whose checks use `C ≥ 0`.) -/
theorem returned_model_value_signs :
    (∀ comps r1 r2 c1 c2 c3,
      detect_exact_double_pi_from_spice comps = some (r1, r2, c1, c2, c3) →
      0 < r1 ∧ 0 < r2 ∧ 0 ≤ c1 ∧ 0 ≤ c2 ∧ 0 ≤ c3) ∧
    (∀ Rs Cs r1 r2 c1 c2 c3,
      detect_exact_double_pi Rs Cs = some (r1, r2, c1, c2, c3) →
      0 < r1 ∧ 0 < r2 ∧ 0 ≤ c1 ∧ 0 ≤ c2 ∧ 0 ≤ c3) ∧
    (∀ Rt Ct m1 m2 r1 r2 c1 c2 c3 uf,
      solve_double_pi_symmetric Rt Ct m1 m2 = some (r1, r2, c1, c2, c3, uf) →
      0 < r1 ∧ 0 < r2 ∧ 0 < c1 ∧ 0 < c2 ∧ 0 < c3) := by
  refine ⟨fun comps r1 r2 c1 c2 c3 h => detect_spice_sign comps r1 r2 c1 c2 c3 h,
    fun Rs Cs r1 r2 c1 c2 c3 h => detect_array_sign Rs Cs r1 r2 c1 c2 c3 h,
    fun Rt Ct m1 m2 r1 r2 c1 c2 c3 uf h => ?_⟩
  unfold solve_double_pi_symmetric at h
  by_cases hg : Rt ≤ 0 ∨ Ct ≤ 0
  · rw [if_pos hg] at h
    exact nomatch h
  · rw [if_neg hg] at h
    push_neg at hg
    have hcore := Option.some.inj h
    unfold solveCore at hcore
    have hb := solveABF_bounds (-m1 / (Rt * Ct * Ct)) (m2 / (Rt * Rt * Ct * Ct * Ct))
    exact solveFrom_pos Rt Ct hg.1 hg.2 _ hb.1 hb.2.1 hb.2.2.1 hb.2.2.2
      r1 r2 c1 c2 c3 uf hcore

/-- C1 counterexample: the positional detector accepts `Rs = [1, 1]`,
`Cs = [0, 0, 0]` and returns the model `(1, 1, 0, 0, 0)` whose capacitances
are all zero, refuting the claim that every returned value is `> 0`. -/
theorem zero_capacitance_model_returned :
    detect_exact_double_pi [1, 1] [0, 0, 0] = some (1, 1, 0, 0, 0) ∧
      ¬ (0 < (1 : ℚ) ∧ 0 < (1 : ℚ) ∧ 0 < (0 : ℚ) ∧ 0 < (0 : ℚ) ∧ 0 < (0 : ℚ)) := by
  constructor
  · with_unfolding_all decide
  · intro hcon
    exact absurd hcon.2.2.1 (by norm_num)

/-- Witness for C1 (amended) at three concrete inputs, one per producing
operation. -/
theorem returned_model_value_signs_witness :
    ((0 : ℚ) < 1 ∧ (0 : ℚ) < 1 ∧ (0 : ℚ) ≤ 1 ∧ (0 : ℚ) ≤ 1 ∧ (0 : ℚ) ≤ 1) ∧
    ((0 : ℚ) < 1 ∧ (0 : ℚ) < 1 ∧ (0 : ℚ) ≤ 0 ∧ (0 : ℚ) ≤ 0 ∧ (0 : ℚ) ≤ 0) ∧
    ((0 : ℚ) < 1 / 2 ∧ (0 : ℚ) < 1 / 2 ∧ (0 : ℚ) < 1 / 4 ∧ (0 : ℚ) < 1 / 2 ∧
      (0 : ℚ) < 1 / 4) :=
  ⟨returned_model_value_signs.1
      [⟨"R1", 'R', 1, "a", "b"⟩, ⟨"R2", 'R', 1, "b", "c"⟩,
       ⟨"C1", 'C', 1, "a", "0"⟩, ⟨"C2", 'C', 1, "b", "0"⟩, ⟨"C3", 'C', 1, "c", "0"⟩]
      1 1 1 1 1 (by with_unfolding_all decide),
   returned_model_value_signs.2.1 [1, 1] [0, 0, 0] 1 1 0 0 0
      (by with_unfolding_all decide),
   returned_model_value_signs.2.2 1 1 0 1 (1 / 2) (1 / 2) (1 / 4) (1 / 2) (1 / 4) true
      solve_one_eval⟩

/-- C2 (amended): the optimizer returns a model exactly when both totals are
strictly positive; a non-positive total raises `ValueError` (modelled as
`none`) — no clamping to 1.0 Ω / 1e-15 F occurs anywhere in the code. -/
theorem optimizer_defined_iff_positive_totals (Rt Ct m1 m2 : ℚ) :
    (solve_double_pi_symmetric Rt Ct m1 m2).isSome = true ↔ 0 < Rt ∧ 0 < Ct := by
  unfold solve_double_pi_symmetric
  by_cases h : Rt ≤ 0 ∨ Ct ≤ 0
  · rw [if_pos h]
    simp only [Option.isSome_none, Bool.false_eq_true, false_iff]
    rintro ⟨h1, h2⟩
    rcases h with h | h <;> linarith
  · rw [if_neg h]
    push_neg at h
    simp only [Option.isSome_some, true_iff]
    exact h

/-- C2 counterexample: with `R_tot = 0` the optimizer raises (returns no
model) instead of clamping the total to 1.0 Ω and returning a model. -/
theorem optimizer_rejects_nonpositive_total :
    solve_double_pi_symmetric 0 1 (-1) 1 = none := by
  unfold solve_double_pi_symmetric
  rw [if_pos (Or.inl le_rfl)]

/-- C4 (amended): when the scan finds no feasible candidate the optimizer
returns exactly the canonical partition `alpha = 0.25`, `beta = 0.5` with
`usedFallback = true`.  (When a best candidate exists but its residual
exceeds the tolerance, the code keeps the candidate and only sets the flag —
see the counterexample.) -/
theorem canonical_fallback_of_no_candidate (Rt Ct m1 m2 : ℚ)
    (hR : 0 < Rt) (hC : 0 < Ct)
    (hnone : bestCandidate (-m1 / (Rt * Ct * Ct)) (m2 / (Rt * Rt * Ct * Ct * Ct)) = none) :
    solve_double_pi_symmetric Rt Ct m1 m2 =
      some (1 / 2 * Rt, 1 / 2 * Rt, 1 / 4 * Ct, 1 / 2 * Ct, 1 / 4 * Ct, true) := by
  unfold solve_double_pi_symmetric
  rw [if_neg (by push_neg; exact ⟨hR, hC⟩)]
  rw [solveCore_of_none Rt Ct m1 m2 hnone, solveFrom_canonical Rt Ct hR hC]

/-- Witness for C4 (amended) at `(1, 1, 0, 1)`. -/
theorem canonical_fallback_of_no_candidate_witness :
    solve_double_pi_symmetric 1 1 0 1 =
      some (1 / 2 * 1, 1 / 2 * 1, 1 / 4 * 1, 1 / 2 * 1, 1 / 4 * 1, true) :=
  canonical_fallback_of_no_candidate 1 1 0 1 (by norm_num) (by norm_num)
    (bestCandidate_none_of_k1_nonpos _ _ (by norm_num))

/-- C4 counterexample: at `R_tot = C_tot = 1`, `m1 = -0.99940009`,
`m2 = 1000` the scan's best candidate is `alpha = 1e-6`,
`beta = 999400089999/999998000000 ≈ 0.9994`, its residual (≈ 999) exceeds the
tolerance `1e-10`, and the optimizer returns that candidate with
`usedFallback = true` instead of discarding it for the canonical partition
(`R1` would be `1/2 * R_tot`). -/
theorem used_fallback_keeps_best_candidate :
    solve_double_pi_symmetric 1 1 (-(99940009 / 10 ^ 8)) 1000 =
      some (999400089999 / 999998000000, 1 - 999400089999 / 999998000000,
        1 / 10 ^ 6, 1 - 2 / 10 ^ 6, 1 / 10 ^ 6, true) ∧
    (999400089999 : ℚ) / 999998000000 ≠ 1 / 2 * 1 := by
  constructor
  · unfold solve_double_pi_symmetric
    rw [if_neg (by norm_num)]
    unfold solveCore
    have e1 : -(-(99940009 / 10 ^ 8)) / ((1 : ℚ) * 1 * 1) = 99940009 / 10 ^ 8 := by
      norm_num
    have e2 : (1000 : ℚ) / (1 * 1 * 1 * 1 * 1) = 1000 := by norm_num
    rw [e1, e2, solveABF_big1000]
    unfold solveFrom
    rw [if_neg]
    · norm_num
    · show ¬ ((1 : ℚ) / 10 ^ 6 * 1 ≤ 0 ∨ (1 - 2 * (1 / 10 ^ 6)) * 1 < 0 ∨
        (1 : ℚ) / 10 ^ 6 * 1 ≤ 0 ∨ (999400089999 : ℚ) / 999998000000 * 1 ≤ 0 ∨
        (1 - 999400089999 / 999998000000) * 1 ≤ 0)
      push_neg
      norm_num
  · norm_num

/-! ## Parser claim theorems -/

/-- C5 (amended): the component list returned by the parser is a permutation
of the accepted records sorted (stably) by component name — it preserves file
order only among records with equal names, not in general. -/
theorem parse_sorts_components_by_name (lines : List String) :
    (parse_hspice_file lines).1.Perm (acceptedRecords lines) ∧
      List.Sorted nameLe (parse_hspice_file lines).1 := by
  constructor
  · show (List.insertionSort nameLe (acceptedRecords lines)).Perm (acceptedRecords lines)
    exact List.perm_insertionSort nameLe (acceptedRecords lines)
  · show List.Sorted nameLe (List.insertionSort nameLe (acceptedRecords lines))
    exact List.sorted_insertionSort nameLe (acceptedRecords lines)

/-- C5 counterexample: for the two-line input `R2 …`, `R1 …` the parser's
component list swaps the two records relative to their line order (the code
sorts by name), refuting "the i-th accepted record appears at position i". -/
theorem parse_reorders_records :
    acceptedRecords ["R2 1 2 5", "R1 2 3 7"] =
      [⟨"R2", 'R', 5, "1", "2"⟩, ⟨"R1", 'R', 7, "2", "3"⟩] ∧
    (parse_hspice_file ["R2 1 2 5", "R1 2 3 7"]).1 =
      [⟨"R1", 'R', 7, "2", "3"⟩, ⟨"R2", 'R', 5, "1", "2"⟩] ∧
    (parse_hspice_file ["R2 1 2 5", "R1 2 3 7"]).1 ≠
      acceptedRecords ["R2 1 2 5", "R1 2 3 7"] := by
  refine ⟨?_, ?_, ?_⟩ <;> with_unfolding_all decide

/-! ## Positional-split claim theorems -/

/-- The code's flexible-format grouping coincides with the spec's description
of the thirds split. -/
theorem flexCaps_eq_specThirds (Cs : List ℚ) : flexCaps Cs = specThirds Cs := by
  unfold flexCaps specThirds flexBounds specThirdsSizes
  obtain hcase | hcase | hcase :
      Cs.length % 3 = 0 ∨ Cs.length % 3 = 1 ∨ Cs.length % 3 = 2 := by omega
  · have e1 : 2 * (Cs.length / 3) - Cs.length / 3 = Cs.length / 3 := by omega
    have e2 : 2 * (Cs.length / 3) = Cs.length / 3 + Cs.length / 3 := by omega
    simp [hcase, e1, e2]
  · have e1 : 2 * (Cs.length / 3) + 1 - (Cs.length / 3 + 1) = Cs.length / 3 := by omega
    have e2 : 2 * (Cs.length / 3) + 1 = Cs.length / 3 + 1 + Cs.length / 3 := by omega
    simp [hcase, e1, e2]
  · have e1 : 2 * (Cs.length / 3) + 2 - (Cs.length / 3 + 1) = Cs.length / 3 + 1 := by
      omega
    have e2 : 2 * (Cs.length / 3) + 2 = Cs.length / 3 + 1 + (Cs.length / 3 + 1) := by
      omega
    simp [hcase, e1, e2]

/-- C6 (amended): the thirds split is applied only in the flexible format
(`len(Cs) ≠ len(Rs) + 1`); there, with exactly two non-zero resistors and at
least 3 capacitors, any returned model carries the thirds capacitor sums and
the two non-zero resistor values in array order.  (In the standard ladder
format `len(Cs) = len(Rs) + 1` the code groups by resistor boundaries
instead — see the counterexample.) -/
theorem flexible_format_splits_in_thirds (Rs Cs : List ℚ) (i1 i2 : ℕ)
    (hnz : nzIndices Rs = [i1, i2]) (h3 : 3 ≤ Cs.length)
    (hne : Cs.length ≠ Rs.length + 1) (r1 r2 c1 c2 c3 : ℚ)
    (h : detect_exact_double_pi Rs Cs = some (r1, r2, c1, c2, c3)) :
    (c1, c2, c3) = specThirds Cs ∧ r1 = Rs.getD i1 0 ∧ r2 = Rs.getD i2 0 := by
  unfold detect_exact_double_pi at h
  rw [hnz] at h
  have h' : (if Cs.length < 3 then none
      else detectFinish (Rs.getD i1 0) (Rs.getD i2 0)
        (if Cs.length = Rs.length + 1 then ladderCaps Cs i1 i2 else flexCaps Cs)) =
      some (r1, r2, c1, c2, c3) := h
  rw [if_neg (not_lt.mpr h3), if_neg hne, flexCaps_eq_specThirds] at h'
  unfold detectFinish at h'
  by_cases hc : Rs.getD i1 0 ≤ 0 ∨ Rs.getD i2 0 ≤ 0 ∨ (specThirds Cs).1 < 0 ∨
      (specThirds Cs).2.1 < 0 ∨ (specThirds Cs).2.2 < 0
  · rw [if_pos hc] at h'
    exact nomatch h'
  · rw [if_neg hc] at h'
    have h'' := Option.some.inj h'
    rw [Prod.mk.injEq, Prod.mk.injEq, Prod.mk.injEq, Prod.mk.injEq] at h''
    obtain ⟨e1, e2, e3, e4, e5⟩ := h''
    refine ⟨?_, e1.symm, e2.symm⟩
    rw [← e3, ← e4, ← e5]

/-- Witness for C6 (amended) at `Rs = [2, 3]`, `Cs = [1, 1, 1, 1]`. -/
theorem flexible_format_splits_in_thirds_witness :
    ((2 : ℚ), (1 : ℚ), (1 : ℚ)) = specThirds [1, 1, 1, 1] ∧
      (2 : ℚ) = ([2, 3] : List ℚ).getD 0 0 ∧ (3 : ℚ) = ([2, 3] : List ℚ).getD 1 0 :=
  flexible_format_splits_in_thirds [2, 3] [1, 1, 1, 1] 0 1
    (by with_unfolding_all decide) (by norm_num) (by norm_num) 2 3 2 1 1
    (by with_unfolding_all decide)

/-- C6 counterexample: with `Rs = [1, 0, 0, 1]`, `Cs = [1, 1, 1, 1, 1]` (a
standard-ladder shape, `len(Cs) = len(Rs) + 1`, two non-zero resistors, five
capacitors) the detector groups by resistor boundaries and returns
`(C1, C2, C3) = (1, 3, 1)`, while the claim's thirds split predicts
`(2, 2, 1)`. -/
theorem positional_split_uses_resistor_boundaries :
    detect_exact_double_pi [1, 0, 0, 1] [1, 1, 1, 1, 1] = some (1, 1, 1, 3, 1) ∧
      specThirds [1, 1, 1, 1, 1] = (2, 2, 1) ∧
      ((1 : ℚ), (3 : ℚ), (1 : ℚ)) ≠ ((2 : ℚ), (2 : ℚ), (1 : ℚ)) := by
  refine ⟨?_, ?_, ?_⟩ <;> with_unfolding_all decide

/-! ## Topology-detector claim theorems -/

/-- C10: a capacitor whose two terminals are both non-ground contributes to
none of the topology detector's capacitance sums; appending such a capacitor
leaves the detection result unchanged. -/
theorem nonground_capacitor_ignored (comps : List SpiceComponent)
    (c : SpiceComponent) (hc : c.ctype = 'C')
    (h1 : c.node1 ≠ "0") (h2 : c.node2 ≠ "0") :
    detect_exact_double_pi_from_spice (comps ++ [c]) =
      detect_exact_double_pi_from_spice comps := by
  have hres : resistorsOf (comps ++ [c]) = resistorsOf comps := by
    unfold resistorsOf
    rw [List.filterMap_append]
    simp [hc]
  have hcap : capSumAt (comps ++ [c]) = capSumAt comps := by
    funext n
    unfold capSumAt
    rw [List.filterMap_append]
    simp [hc, h1, h2]
  unfold detect_exact_double_pi_from_spice
  rw [hres, hcap]

/-- Witness for C10: a three-supernode path whose detection result is
unchanged by an added non-ground (coupling) capacitor. -/
theorem nonground_capacitor_ignored_witness :
    detect_exact_double_pi_from_spice
        ([⟨"R1", 'R', 1, "a", "b"⟩, ⟨"R2", 'R', 1, "b", "c"⟩,
          ⟨"C1", 'C', 1, "a", "0"⟩, ⟨"C2", 'C', 1, "b", "0"⟩,
          ⟨"C3", 'C', 1, "c", "0"⟩] ++ [⟨"CX", 'C', 5, "a", "b"⟩]) =
      detect_exact_double_pi_from_spice
        [⟨"R1", 'R', 1, "a", "b"⟩, ⟨"R2", 'R', 1, "b", "c"⟩,
          ⟨"C1", 'C', 1, "a", "0"⟩, ⟨"C2", 'C', 1, "b", "0"⟩,
          ⟨"C3", 'C', 1, "c", "0"⟩] ∧
    detect_exact_double_pi_from_spice
        [⟨"R1", 'R', 1, "a", "b"⟩, ⟨"R2", 'R', 1, "b", "c"⟩,
          ⟨"C1", 'C', 1, "a", "0"⟩, ⟨"C2", 'C', 1, "b", "0"⟩,
          ⟨"C3", 'C', 1, "c", "0"⟩] = some (1, 1, 1, 1, 1) :=
  ⟨nonground_capacitor_ignored _ ⟨"CX", 'C', 5, "a", "b"⟩ rfl
      (by with_unfolding_all decide) (by with_unfolding_all decide),
    by with_unfolding_all decide⟩

/-! ### C9: emit/re-parse round trip of the generated Double-Pi lines -/


/-- The decimal digit characters and their numeric values. -/
theorem digitChar_val : ∀ d : ℕ, d < 10 →
    (Nat.digitChar d).toNat - '0'.toNat = d ∧ (Nat.digitChar d).isDigit = true := by
  decide

/-- A digit character is none of the special characters of the float grammar
and is not whitespace. -/
theorem digit_not_special (c : Char) (h : c.isDigit = true) :
    c ≠ 'e' ∧ c ≠ 'E' ∧ c ≠ '.' ∧ c ≠ '+' ∧ c ≠ '-' ∧
      c.isWhitespace = false := by
  refine ⟨?_, ?_, ?_, ?_, ?_, ?_⟩
  · rintro rfl; exact absurd h (by decide)
  · rintro rfl; exact absurd h (by decide)
  · rintro rfl; exact absurd h (by decide)
  · rintro rfl; exact absurd h (by decide)
  · rintro rfl; exact absurd h (by decide)
  · cases hw : c.isWhitespace
    · rfl
    · exfalso
      simp only [Char.isWhitespace, Bool.or_eq_true, decide_eq_true_eq] at hw
      rcases hw with ((hw | hw) | hw) | hw <;>
        · subst hw; exact absurd h (by decide)

/-- Folding the digit accumulator from an arbitrary start. -/
theorem digitsVal_go (l : List Char) (a : ℕ) :
    l.foldl (fun acc c => 10 * acc + (c.toNat - '0'.toNat)) a =
      a * 10 ^ l.length + digitsVal l := by
  induction l generalizing a with
  | nil => simp [digitsVal]
  | cons c t ih =>
    simp only [List.foldl_cons, List.length_cons]
    rw [ih]
    have h2 : digitsVal (c :: t) =
        (10 * 0 + (c.toNat - '0'.toNat)) * 10 ^ t.length + digitsVal t := by
      unfold digitsVal
      rw [List.foldl_cons, ih]
      rfl
    rw [h2]
    ring

theorem digitsVal_append (l1 l2 : List Char) :
    digitsVal (l1 ++ l2) = digitsVal l1 * 10 ^ l2.length + digitsVal l2 := by
  unfold digitsVal
  rw [List.foldl_append, digitsVal_go]
  rfl

theorem digitsVal_replicate_zero (k : ℕ) :
    digitsVal (List.replicate k '0') = 0 := by
  induction k with
  | zero => rfl
  | succ n ih =>
    rw [List.replicate_succ, digitsVal, List.foldl_cons]
    show List.foldl _ (10 * 0 + ('0'.toNat - '0'.toNat)) _ = 0
    simpa [digitsVal] using ih

theorem digitsVal_singleton (c : Char) :
    digitsVal [c] = c.toNat - '0'.toNat := by
  simp [digitsVal]

/-- Soundness of the fuel-driven digit extraction. -/
theorem natDigitsAux_sound : ∀ fuel n : ℕ, n ≤ fuel →
    digitsVal (natDigitsAux fuel n) = n ∧
    (∀ c ∈ natDigitsAux fuel n, c.isDigit = true) ∧
    (natDigitsAux fuel n = [] ↔ n = 0) := by
  intro fuel
  induction fuel with
  | zero =>
    intro n hn
    have : n = 0 := Nat.le_zero.mp hn
    subst this
    exact ⟨rfl, by simp [natDigitsAux], by simp [natDigitsAux]⟩
  | succ f ih =>
    intro n hn
    by_cases h0 : n = 0
    · subst h0
      simp [natDigitsAux, digitsVal]
    · have hrec : n / 10 ≤ f := by
        have : n / 10 < n := Nat.div_lt_self (Nat.pos_of_ne_zero h0) (by norm_num)
        omega
      obtain ⟨ihv, ihd, _⟩ := ih (n / 10) hrec
      have hmod : n % 10 < 10 := Nat.mod_lt _ (by norm_num)
      obtain ⟨hcv, hcd⟩ := digitChar_val (n % 10) hmod
      constructor
      · rw [natDigitsAux, if_neg h0, digitsVal_append, ihv, digitsVal_singleton,
          hcv, List.length_singleton, pow_one]
        omega
      constructor
      · intro c hc
        rw [natDigitsAux, if_neg h0] at hc
        rcases List.mem_append.mp hc with h | h
        · exact ihd c h
        · rw [List.mem_singleton.mp h]; exact hcd
      · rw [natDigitsAux, if_neg h0]
        simp [h0]

/-- Length bound for the fuel-driven digit extraction. -/
theorem natDigitsAux_len : ∀ fuel n w : ℕ, n ≤ fuel → n < 10 ^ w →
    (natDigitsAux fuel n).length ≤ w := by
  intro fuel
  induction fuel with
  | zero =>
    intro n w hn _
    have : n = 0 := Nat.le_zero.mp hn
    subst this
    simp [natDigitsAux]
  | succ f ih =>
    intro n w hn hw
    by_cases h0 : n = 0
    · subst h0; simp [natDigitsAux]
    · have hrec : n / 10 ≤ f := by
        have : n / 10 < n := Nat.div_lt_self (Nat.pos_of_ne_zero h0) (by norm_num)
        omega
      rcases w with _ | w'
      · exact absurd hw (by omega)
      · have hdiv : n / 10 < 10 ^ w' := by
          rw [Nat.div_lt_iff_lt_mul (by norm_num : (0:ℕ) < 10)]
          calc n < 10 ^ (w' + 1) := hw
          _ = 10 ^ w' * 10 := by ring
        have := ih (n / 10) w' hrec hdiv
        rw [natDigitsAux, if_neg h0, List.length_append, List.length_singleton]
        omega

theorem digitsVal_natDigitsStr (n : ℕ) : digitsVal (natDigitsStr n) = n :=
  (natDigitsAux_sound n n le_rfl).1

theorem natDigitsStr_digits (n : ℕ) :
    ∀ c ∈ natDigitsStr n, c.isDigit = true :=
  (natDigitsAux_sound n n le_rfl).2.1

theorem natDigitsStr_eq_nil_iff (n : ℕ) : natDigitsStr n = [] ↔ n = 0 :=
  (natDigitsAux_sound n n le_rfl).2.2

theorem natDigitsStr_len (n w : ℕ) (h : n < 10 ^ w) :
    (natDigitsStr n).length ≤ w :=
  natDigitsAux_len n n w le_rfl h

theorem digitsVal_natRender (n : ℕ) : digitsVal (natRender n) = n := by
  unfold natRender
  by_cases h : n = 0
  · subst h; rw [if_pos rfl]; rfl
  · rw [if_neg h]; exact digitsVal_natDigitsStr n

theorem natRender_digits (n : ℕ) : ∀ c ∈ natRender n, c.isDigit = true := by
  unfold natRender
  by_cases h : n = 0
  · subst h; rw [if_pos rfl]; intro c hc
    rw [List.mem_singleton.mp hc]; decide
  · rw [if_neg h]; exact natDigitsStr_digits n

theorem natRender_ne_nil (n : ℕ) : natRender n ≠ [] := by
  unfold natRender
  by_cases h : n = 0
  · subst h; rw [if_pos rfl]; simp
  · rw [if_neg h]
    intro hc
    exact h ((natDigitsStr_eq_nil_iff n).mp hc)

theorem padLeftZeros_digits (w : ℕ) (ds : List Char)
    (h : ∀ c ∈ ds, c.isDigit = true) :
    ∀ c ∈ padLeftZeros w ds, c.isDigit = true := by
  intro c hc
  rcases List.mem_append.mp hc with h1 | h1
  · rw [(List.eq_of_mem_replicate h1 : c = '0')]; decide
  · exact h c h1

theorem padLeftZeros_length (w : ℕ) (ds : List Char) (h : ds.length ≤ w) :
    (padLeftZeros w ds).length = w := by
  unfold padLeftZeros
  rw [List.length_append, List.length_replicate]
  omega

theorem digitsVal_padLeftZeros (w : ℕ) (ds : List Char) :
    digitsVal (padLeftZeros w ds) = digitsVal ds := by
  unfold padLeftZeros
  rw [digitsVal_append, digitsVal_replicate_zero]
  ring

/-- Trailing-zero stripping only removes `'0'` characters from the end. -/
theorem stripTrailingZeros_decomp (ds : List Char) :
    ∃ k, ds = stripTrailingZeros ds ++ List.replicate k '0' := by
  refine ⟨(ds.reverse.takeWhile (fun c => c = '0')).length, ?_⟩
  conv_lhs => rw [← List.reverse_reverse ds,
    ← List.takeWhile_append_dropWhile (p := fun c => c = '0') (l := ds.reverse)]
  rw [List.reverse_append]
  unfold stripTrailingZeros
  congr 1
  have hall : ∀ c ∈ ds.reverse.takeWhile (fun c => c = '0'), c = '0' := by
    intro c hc
    have := List.mem_takeWhile_imp hc
    simpa using this
  conv_lhs => rw [List.eq_replicate_length.mpr hall]
  rw [List.reverse_replicate]

theorem stripTrailingZeros_sub (ds : List Char) :
    ∀ c ∈ stripTrailingZeros ds, c ∈ ds := by
  obtain ⟨k, hk⟩ := stripTrailingZeros_decomp ds
  intro c hc
  rw [hk]
  exact List.mem_append_left _ hc

theorem digitsVal_stripTrailingZeros (ds : List Char) :
    (digitsVal (stripTrailingZeros ds) : ℚ) / 10 ^ (stripTrailingZeros ds).length =
      (digitsVal ds : ℚ) / 10 ^ ds.length := by
  obtain ⟨k, hk⟩ := stripTrailingZeros_decomp ds
  conv_rhs => rw [hk]
  rw [digitsVal_append, digitsVal_replicate_zero, List.length_append,
    List.length_replicate]
  push_cast
  rw [pow_add]
  have h1 : ((10:ℚ) ^ (stripTrailingZeros ds).length) ≠ 0 := by positivity
  have h2 : ((10:ℚ) ^ k) ≠ 0 := by positivity
  field_simp
  ring

theorem takeWhile_eq_self_of_all {p : Char → Bool} {l : List Char}
    (h : ∀ c ∈ l, p c = true) : l.takeWhile p = l := by
  induction l with
  | nil => rfl
  | cons c t ih =>
    rw [List.takeWhile_cons, if_pos (h c (List.mem_cons_self c t))]
    rw [ih fun x hx => h x (List.mem_cons_of_mem c hx)]

theorem dropWhile_eq_nil_of_all {p : Char → Bool} {l : List Char}
    (h : ∀ c ∈ l, p c = true) : l.dropWhile p = [] := by
  induction l with
  | nil => rfl
  | cons c t ih =>
    rw [List.dropWhile_cons, if_pos (h c (List.mem_cons_self c t))]
    exact ih fun x hx => h x (List.mem_cons_of_mem c hx)

theorem takeWhile_append_of_all {p : Char → Bool} {l1 : List Char}
    (l2 : List Char) (h : ∀ c ∈ l1, p c = true) :
    (l1 ++ l2).takeWhile p = l1 ++ l2.takeWhile p := by
  induction l1 with
  | nil => rfl
  | cons c t ih =>
    rw [List.cons_append, List.takeWhile_cons,
      if_pos (h c (List.mem_cons_self c t)),
      ih fun x hx => h x (List.mem_cons_of_mem c hx), List.cons_append]

theorem dropWhile_append_of_all {p : Char → Bool} {l1 : List Char}
    (l2 : List Char) (h : ∀ c ∈ l1, p c = true) :
    (l1 ++ l2).dropWhile p = l2.dropWhile p := by
  induction l1 with
  | nil => rfl
  | cons c t ih =>
    rw [List.cons_append, List.dropWhile_cons,
      if_pos (h c (List.mem_cons_self c t))]
    exact ih fun x hx => h x (List.mem_cons_of_mem c hx)

/-- Scanning a whitespace-free word accumulates it (reversed). -/
theorem splitWsAux_word (w : List Char) (hw : ∀ c ∈ w, c.isWhitespace = false) :
    ∀ l acc, splitWsAux (w ++ l) acc = splitWsAux l (w.reverse ++ acc) := by
  induction w with
  | nil => intro l acc; rfl
  | cons c t ih =>
    intro l acc
    rw [List.cons_append, splitWsAux]
    have hc : c.isWhitespace = false := hw c (List.mem_cons_self c t)
    rw [if_neg (by simp [hc])]
    rw [ih (fun x hx => hw x (List.mem_cons_of_mem c hx)) l (c :: acc)]
    simp

/-- A non-empty whitespace-free word followed by a space yields one token. -/
theorem splitWsAux_word_space (w rest : List Char) (hw : w ≠ [])
    (h : ∀ c ∈ w, c.isWhitespace = false) :
    splitWsAux (w ++ ' ' :: rest) [] = w :: splitWsAux rest [] := by
  rw [splitWsAux_word w h (' ' :: rest) [], List.append_nil, splitWsAux]
  rw [if_pos (by decide : (' ').isWhitespace = true)]
  rw [if_neg (by simp [hw])]
  rw [List.reverse_reverse]

/-- A final non-empty whitespace-free word yields one token. -/
theorem splitWsAux_word_last (w : List Char) (hw : w ≠ [])
    (h : ∀ c ∈ w, c.isWhitespace = false) :
    splitWsAux w [] = [w] := by
  have := splitWsAux_word w h [] []
  rw [List.append_nil] at this
  rw [this, splitWsAux, List.append_nil, if_neg (by simp [hw]),
    List.reverse_reverse]

theorem mem_of_head?_eq {α : Type} {l : List α} {c : α}
    (h : l.head? = some c) : c ∈ l := by
  cases l with
  | nil => exact absurd h (by simp)
  | cons a t =>
    rw [List.head?_cons, Option.some.injEq] at h
    rw [← h]
    exact List.mem_cons_self a t

theorem mem_of_getLast?_eq {α : Type} {l : List α} {c : α}
    (h : l.getLast? = some c) : c ∈ l := by
  rw [List.getLast?_eq_head?_reverse] at h
  exact (List.mem_reverse).mp (mem_of_head?_eq h)

theorem getLast?_append_right {α : Type} (l1 l2 : List α) (h : l2 ≠ []) :
    (l1 ++ l2).getLast? = l2.getLast? := by
  rw [List.getLast?_eq_head?_reverse, List.getLast?_eq_head?_reverse,
    List.reverse_append]
  cases hr : l2.reverse with
  | nil => exact absurd (by simpa using hr) h
  | cons a t => rw [List.cons_append, List.head?_cons, List.head?_cons]

/-- `str.strip()` is the identity on a string with no whitespace at either
end. -/
theorem stripChars_id (l : List Char)
    (h1 : ∀ c, l.head? = some c → c.isWhitespace = false)
    (h2 : ∀ c, l.getLast? = some c → c.isWhitespace = false) :
    stripChars l = l := by
  cases l with
  | nil => rfl
  | cons a t =>
    unfold stripChars
    have ha : a.isWhitespace = false := h1 a (by rw [List.head?_cons])
    rw [List.dropWhile_cons_of_neg (by simp [ha])]
    cases hr : (a :: t).reverse with
    | nil => exact absurd hr (by simp)
    | cons b t' =>
      have hb : b.isWhitespace = false := by
        apply h2
        rw [List.getLast?_eq_head?_reverse, hr, List.head?_cons]
      have hd : List.dropWhile Char.isWhitespace (b :: t') = b :: t' :=
        List.dropWhile_cons_of_neg (by simp [hb])
      rw [hd, ← hr, List.reverse_reverse]

/-- `pySign` does not consume a leading digit. -/
theorem pySign_of_digit (a : Char) (r : List Char) (ha : a.isDigit = true) :
    pySign (a :: r) = (1, a :: r) := by
  obtain ⟨_, _, _, hplus, hminus, _⟩ := digit_not_special a ha
  simp only [pySign]
  rw [if_neg hplus, if_neg hminus]

/-- The float grammar on a `digits` or `digits.digits` token. -/
theorem pyFloat_body (ds tail fs : List Char) (hds : ds ≠ [])
    (hd : ∀ c ∈ ds, c.isDigit = true) (hf : ∀ c ∈ fs, c.isDigit = true)
    (ht : tail = [] ∧ fs = [] ∨ tail = '.' :: fs) :
    pyFloatChars? (ds ++ tail) = some (pyMantVal ds fs) := by
  obtain ⟨a, t, rfl⟩ := List.exists_cons_of_ne_nil hds
  have hmem : ∀ c ∈ (a :: t) ++ tail, c.isDigit = true ∨ c = '.' := by
    intro c hc
    rcases List.mem_append.mp hc with h | h
    · exact Or.inl (hd c h)
    · rcases ht with ⟨rfl, _⟩ | rfl
      · exact absurd h (by simp)
      · rcases List.mem_cons.mp h with rfl | h
        · exact Or.inr rfl
        · exact Or.inl (hf c h)
  have hsign : pySign ((a :: t) ++ tail) = (1, (a :: t) ++ tail) := by
    rw [List.cons_append, pySign_of_digit a (t ++ tail) (hd a (List.mem_cons_self a t))]
  have hs1 : (pySign ((a :: t) ++ tail)).1 = 1 := by rw [hsign]
  have hs2 : (pySign ((a :: t) ++ tail)).2 = (a :: t) ++ tail := by rw [hsign]
  have hpe : ∀ c ∈ (a :: t) ++ tail,
      (decide (¬ (c = 'e' ∨ c = 'E'))) = true := by
    intro c hc
    rcases hmem c hc with h | rfl
    · obtain ⟨he, hE, _⟩ := digit_not_special c h
      simp [he, hE]
    · decide
  have htakeE : ((a :: t) ++ tail).takeWhile (fun c => ¬ (c = 'e' ∨ c = 'E')) =
      (a :: t) ++ tail := takeWhile_eq_self_of_all hpe
  have hdropE : ((a :: t) ++ tail).dropWhile (fun c => ¬ (c = 'e' ∨ c = 'E')) =
      [] := dropWhile_eq_nil_of_all hpe
  have hpd : ∀ c ∈ (a :: t), (decide (¬ c = '.')) = true := by
    intro c hc
    obtain ⟨_, _, hdot, _⟩ := digit_not_special c (hd c hc)
    simp [hdot]
  have hip : ((a :: t) ++ tail).takeWhile (fun c => ¬ c = '.') = a :: t := by
    rw [takeWhile_append_of_all tail hpd]
    rcases ht with ⟨rfl, _⟩ | rfl
    · rw [List.takeWhile_nil, List.append_nil]
    · rw [List.takeWhile_cons_of_neg (by decide), List.append_nil]
  have hfp : (((a :: t) ++ tail).dropWhile (fun c => ¬ c = '.')).drop 1 = fs := by
    rw [dropWhile_append_of_all tail hpd]
    rcases ht with ⟨rfl, rfl⟩ | rfl
    · rfl
    · rw [List.dropWhile_cons_of_neg (by decide), List.drop_succ_cons,
        List.drop_zero]
  unfold pyFloatChars?
  rw [hs1, hs2, htakeE, hdropE, hip, hfp]
  rw [if_pos ⟨List.all_eq_true.mpr hd, List.all_eq_true.mpr hf,
    Or.inl (by simp)⟩]
  show some (1 * pyMantVal (a :: t) fs) = some (pyMantVal (a :: t) fs)
  rw [one_mul]

/-- The float grammar with an exponent suffix. -/
theorem pyFloat_body_exp (ds tail fs : List Char) (sc : Char) (es : List Char)
    (hds : ds ≠ []) (hd : ∀ c ∈ ds, c.isDigit = true)
    (hf : ∀ c ∈ fs, c.isDigit = true)
    (ht : tail = [] ∧ fs = [] ∨ tail = '.' :: fs)
    (hsc : sc = '+' ∨ sc = '-') (hes : es ≠ [])
    (he : ∀ c ∈ es, c.isDigit = true) :
    pyFloatChars? ((ds ++ tail) ++ 'e' :: sc :: es) =
      some (pyMantVal ds fs *
        (10 : ℚ) ^ ((if sc = '-' then (-1 : ℤ) else 1) * (digitsVal es : ℤ))) := by
  obtain ⟨a, t, rfl⟩ := List.exists_cons_of_ne_nil hds
  have hmem : ∀ c ∈ (a :: t) ++ tail, c.isDigit = true ∨ c = '.' := by
    intro c hc
    rcases List.mem_append.mp hc with h | h
    · exact Or.inl (hd c h)
    · rcases ht with ⟨rfl, _⟩ | rfl
      · exact absurd h (by simp)
      · rcases List.mem_cons.mp h with rfl | h
        · exact Or.inr rfl
        · exact Or.inl (hf c h)
  have hsign : pySign (((a :: t) ++ tail) ++ 'e' :: sc :: es) =
      (1, ((a :: t) ++ tail) ++ 'e' :: sc :: es) := by
    rw [List.cons_append, List.cons_append,
      pySign_of_digit a _ (hd a (List.mem_cons_self a t))]
  have hs1 : (pySign (((a :: t) ++ tail) ++ 'e' :: sc :: es)).1 = 1 := by
    rw [hsign]
  have hs2 : (pySign (((a :: t) ++ tail) ++ 'e' :: sc :: es)).2 =
      ((a :: t) ++ tail) ++ 'e' :: sc :: es := by rw [hsign]
  have hpe : ∀ c ∈ (a :: t) ++ tail,
      (decide (¬ (c = 'e' ∨ c = 'E'))) = true := by
    intro c hc
    rcases hmem c hc with h | rfl
    · obtain ⟨he', hE, _⟩ := digit_not_special c h
      simp [he', hE]
    · decide
  have htakeE : (((a :: t) ++ tail) ++ 'e' :: sc :: es).takeWhile
      (fun c => ¬ (c = 'e' ∨ c = 'E')) = (a :: t) ++ tail := by
    rw [takeWhile_append_of_all _ hpe,
      List.takeWhile_cons_of_neg (by decide), List.append_nil]
  have hdropE : (((a :: t) ++ tail) ++ 'e' :: sc :: es).dropWhile
      (fun c => ¬ (c = 'e' ∨ c = 'E')) = 'e' :: sc :: es := by
    rw [dropWhile_append_of_all _ hpe,
      List.dropWhile_cons_of_neg (by decide)]
  have hpd : ∀ c ∈ (a :: t), (decide (¬ c = '.')) = true := by
    intro c hc
    obtain ⟨_, _, hdot, _⟩ := digit_not_special c (hd c hc)
    simp [hdot]
  have hip : ((a :: t) ++ tail).takeWhile (fun c => ¬ c = '.') = a :: t := by
    rw [takeWhile_append_of_all tail hpd]
    rcases ht with ⟨rfl, _⟩ | rfl
    · rw [List.takeWhile_nil, List.append_nil]
    · rw [List.takeWhile_cons_of_neg (by decide), List.append_nil]
  have hfp : (((a :: t) ++ tail).dropWhile (fun c => ¬ c = '.')).drop 1 = fs := by
    rw [dropWhile_append_of_all tail hpd]
    rcases ht with ⟨rfl, rfl⟩ | rfl
    · rfl
    · rw [List.dropWhile_cons_of_neg (by decide), List.drop_succ_cons,
        List.drop_zero]
  have hsgn : pySignInt (sc :: es) = ((if sc = '-' then (-1 : ℤ) else 1), es) := by
    rcases hsc with rfl | rfl <;> simp [pySignInt]
  have hg1 : (pySignInt (sc :: es)).1 = (if sc = '-' then (-1 : ℤ) else 1) := by
    rw [hsgn]
  have hg2 : (pySignInt (sc :: es)).2 = es := by rw [hsgn]
  unfold pyFloatChars?
  rw [hs1, hs2, htakeE, hdropE, hip, hfp]
  rw [if_pos ⟨List.all_eq_true.mpr hd, List.all_eq_true.mpr hf,
    Or.inl (by simp)⟩]
  show (if (pySignInt (sc :: es)).2 ≠ [] ∧
      (pySignInt (sc :: es)).2.all Char.isDigit then _ else none) = _
  rw [hg1, hg2]
  rw [if_pos ⟨hes, List.all_eq_true.mpr he⟩]
  rw [one_mul]

/-- Bracketing property of the fuel-driven base-10 logarithm. -/
theorem log10Aux_bracket : ∀ fuel n : ℕ, 1 ≤ n → n ≤ fuel →
    10 ^ log10Aux fuel n ≤ n ∧ n < 10 ^ (log10Aux fuel n + 1) := by
  intro fuel
  induction fuel with
  | zero => intro n h1 h2; omega
  | succ f ih =>
    intro n h1 h2
    by_cases h10 : n < 10
    · rw [log10Aux, if_pos h10]
      refine ⟨by simpa using h1, by simpa using h10⟩
    · push_neg at h10
      have hm1 : 1 ≤ n / 10 := (Nat.one_le_div_iff (by norm_num)).mpr h10
      have hm2 : n / 10 ≤ f := by
        have := Nat.div_lt_self (show 0 < n by omega) (by norm_num : (1:ℕ) < 10)
        omega
      obtain ⟨ih1, ih2⟩ := ih (n / 10) hm1 hm2
      rw [log10Aux, if_neg (by omega)]
      constructor
      · calc 10 ^ (log10Aux f (n / 10) + 1)
            = 10 ^ log10Aux f (n / 10) * 10 := by ring
        _ ≤ (n / 10) * 10 := Nat.mul_le_mul_right 10 ih1
        _ ≤ n := Nat.div_mul_le_self n 10
      · have e1 : n < ((n / 10) + 1) * 10 := by omega
        have e2 : ((n / 10) + 1) * 10 ≤ 10 ^ (log10Aux f (n / 10) + 1) * 10 :=
          Nat.mul_le_mul_right _ (by omega)
        have e3 : 10 ^ (log10Aux f (n / 10) + 1) * 10 =
            10 ^ (log10Aux f (n / 10) + 1 + 1) := (pow_succ 10 _).symm
        exact lt_of_lt_of_le e1 (e3 ▸ e2)

theorem log10_bracket (n : ℕ) (h : 1 ≤ n) :
    10 ^ log10 n ≤ n ∧ n < 10 ^ (log10 n + 1) :=
  log10Aux_bracket n n h le_rfl

/-- `sigExp` is the true decimal exponent of a positive rational. -/
theorem sigExp_bracket (q : ℚ) (hq : 0 < q) :
    (10:ℚ) ^ sigExp q ≤ q ∧ q < (10:ℚ) ^ (sigExp q + 1) := by
  have hnum_pos : 0 < q.num := Rat.num_pos.mpr hq
  have ha1 : 1 ≤ q.num.natAbs := by omega
  have hd1 : 1 ≤ q.den := q.pos
  have hdc : (0:ℚ) < (q.den : ℚ) := by exact_mod_cast hd1
  have hqa : ((q.num.natAbs : ℚ)) = (q.num : ℚ) := by
    rw [Int.cast_natAbs, Int.cast_abs]
    exact abs_of_nonneg (by exact_mod_cast hnum_pos.le)
  have hq_eq : q * (q.den : ℚ) = (q.num.natAbs : ℚ) := by
    rw [hqa]
    calc q * (q.den : ℚ) = ((q.num : ℚ) / (q.den : ℚ)) * (q.den : ℚ) := by
          rw [Rat.num_div_den]
    _ = (q.num : ℚ) := div_mul_cancel₀ _ (ne_of_gt hdc)
  obtain ⟨hA1, hA2⟩ := log10_bracket q.num.natAbs ha1
  obtain ⟨hD1, hD2⟩ := log10_bracket q.den hd1
  have cA1 : (10:ℚ) ^ (log10 q.num.natAbs) ≤ (q.num.natAbs : ℚ) := by
    exact_mod_cast hA1
  have cA2 : (q.num.natAbs : ℚ) < (10:ℚ) ^ (log10 q.num.natAbs + 1) := by
    exact_mod_cast hA2
  have cD1 : (10:ℚ) ^ (log10 q.den) ≤ (q.den : ℚ) := by exact_mod_cast hD1
  have cD2 : (q.den : ℚ) < (10:ℚ) ^ (log10 q.den + 1) := by exact_mod_cast hD2
  have hten : (10:ℚ) ≠ 0 := by norm_num
  have key1 : q < (10:ℚ) ^ ((log10 q.num.natAbs : ℤ) - (log10 q.den : ℤ) + 1) := by
    have step : q * (10:ℚ) ^ (log10 q.den) < (10:ℚ) ^ (log10 q.num.natAbs + 1) := by
      calc q * (10:ℚ) ^ (log10 q.den) ≤ q * (q.den : ℚ) :=
            mul_le_mul_of_nonneg_left cD1 hq.le
      _ = (q.num.natAbs : ℚ) := hq_eq
      _ < (10:ℚ) ^ (log10 q.num.natAbs + 1) := cA2
    have hp : (0:ℚ) < (10:ℚ) ^ (log10 q.den) := by positivity
    have := (lt_div_iff₀ hp).mpr step
    calc q < (10:ℚ) ^ (log10 q.num.natAbs + 1) / (10:ℚ) ^ (log10 q.den) := this
    _ = (10:ℚ) ^ ((log10 q.num.natAbs : ℤ) - (log10 q.den : ℤ) + 1) := by
        rw [← zpow_natCast (10:ℚ) (log10 q.num.natAbs + 1),
          ← zpow_natCast (10:ℚ) (log10 q.den), ← zpow_sub₀ hten]
        congr 1
        push_cast
        ring
  have key2 : (10:ℚ) ^ ((log10 q.num.natAbs : ℤ) - (log10 q.den : ℤ) - 1) ≤ q := by
    have step : (10:ℚ) ^ (log10 q.num.natAbs) < q * (10:ℚ) ^ (log10 q.den + 1) := by
      calc (10:ℚ) ^ (log10 q.num.natAbs) ≤ (q.num.natAbs : ℚ) := cA1
      _ = q * (q.den : ℚ) := hq_eq.symm
      _ < q * (10:ℚ) ^ (log10 q.den + 1) :=
            mul_lt_mul_of_pos_left cD2 hq
    have hp : (0:ℚ) < (10:ℚ) ^ (log10 q.den + 1) := by positivity
    have := (div_lt_iff₀ hp).mpr step
    have heq : (10:ℚ) ^ (log10 q.num.natAbs) / (10:ℚ) ^ (log10 q.den + 1) =
        (10:ℚ) ^ ((log10 q.num.natAbs : ℤ) - (log10 q.den : ℤ) - 1) := by
      rw [← zpow_natCast (10:ℚ) (log10 q.num.natAbs),
        ← zpow_natCast (10:ℚ) (log10 q.den + 1), ← zpow_sub₀ hten]
      congr 1
      push_cast
      ring
    linarith [heq ▸ this]
  unfold sigExp
  by_cases h : (10:ℚ) ^ ((log10 q.num.natAbs : ℤ) - (log10 q.den : ℤ)) ≤ q
  · rw [if_pos h]
    exact ⟨h, key1⟩
  · rw [if_neg h]
    refine ⟨key2, ?_⟩
    have heq : (10:ℚ) ^ ((log10 q.num.natAbs : ℤ) - (log10 q.den : ℤ) - 1 + 1) =
        (10:ℚ) ^ ((log10 q.num.natAbs : ℤ) - (log10 q.den : ℤ)) := by
      congr 1
      ring
    rw [heq]
    exact lt_of_not_le h

/-- The mantissa/exponent pair of the 6-significant-digit rounding. -/
theorem mant6_spec (q : ℚ) (hq : 0 < q) :
    val6 q = (round (q / (10:ℚ) ^ (sigExp q - 5)) : ℚ) * (10:ℚ) ^ (sigExp q - 5) ∧
    10 ^ 5 ≤ (mant6 q).1 ∧ (mant6 q).1 < 10 ^ 6 := by
  obtain ⟨hb1, hb2⟩ := sigExp_bracket q hq
  have hten : (10:ℚ) ≠ 0 := by norm_num
  have ht0 : (0:ℚ) < (10:ℚ) ^ (sigExp q - 5) := zpow_pos (by norm_num) _
  have hu1 : (10:ℚ) ^ (5:ℕ) ≤ q / (10:ℚ) ^ (sigExp q - 5) := by
    rw [le_div_iff₀ ht0]
    have heq : (10:ℚ) ^ (5:ℕ) * (10:ℚ) ^ (sigExp q - 5) = (10:ℚ) ^ sigExp q := by
      rw [← zpow_natCast (10:ℚ) 5, ← zpow_add₀ hten]
      congr 1
      push_cast
      ring
    rw [heq]
    exact hb1
  have hu2 : q / (10:ℚ) ^ (sigExp q - 5) < (10:ℚ) ^ (6:ℕ) := by
    rw [div_lt_iff₀ ht0]
    have heq : (10:ℚ) ^ (6:ℕ) * (10:ℚ) ^ (sigExp q - 5) =
        (10:ℚ) ^ (sigExp q + 1) := by
      rw [← zpow_natCast (10:ℚ) 6, ← zpow_add₀ hten]
      congr 1
      push_cast
      ring
    rw [heq]
    exact hb2
  have hr1 : (100000 : ℤ) ≤ round (q / (10:ℚ) ^ (sigExp q - 5)) := by
    rw [round_eq]
    apply Int.le_floor.mpr
    push_cast
    have h5 : ((10:ℚ) ^ (5:ℕ)) = 100000 := by norm_num
    rw [h5] at hu1
    linarith
  have hr2 : round (q / (10:ℚ) ^ (sigExp q - 5)) ≤ 1000000 := by
    rw [round_eq]
    have hfl : ⌊q / (10:ℚ) ^ (sigExp q - 5) + 1/2⌋ < 1000001 := by
      apply Int.floor_lt.mpr
      push_cast
      have h6 : ((10:ℚ) ^ (6:ℕ)) = 1000000 := by norm_num
      rw [h6] at hu2
      linarith
    omega
  have hm : mant6 q = if round (q / (10:ℚ) ^ (sigExp q - 5)) = 10 ^ 6 then
      ((10 ^ 5 : ℕ), sigExp q + 1)
    else ((round (q / (10:ℚ) ^ (sigExp q - 5))).toNat, sigExp q) := rfl
  by_cases hcase : round (q / (10:ℚ) ^ (sigExp q - 5)) = 10 ^ 6
  · rw [show val6 q = ((mant6 q).1 : ℚ) * (10:ℚ) ^ ((mant6 q).2 - 5) from rfl,
      hm, if_pos hcase]
    refine ⟨?_, by norm_num, by norm_num⟩
    show ((10 ^ 5 : ℕ) : ℚ) * (10:ℚ) ^ (sigExp q + 1 - 5) = _
    rw [hcase]
    have heq : (10:ℚ) ^ (sigExp q + 1 - 5) = (10:ℚ) ^ (sigExp q - 5) * 10 := by
      rw [← zpow_add_one₀ hten]
      congr 1
      ring
    rw [heq]
    push_cast
    ring
  · rw [show val6 q = ((mant6 q).1 : ℚ) * (10:ℚ) ^ ((mant6 q).2 - 5) from rfl,
      hm, if_neg hcase]
    have hr0 : 0 ≤ round (q / (10:ℚ) ^ (sigExp q - 5)) := by omega
    refine ⟨?_, ?_, ?_⟩
    · show (((round (q / (10:ℚ) ^ (sigExp q - 5))).toNat : ℕ) : ℚ) *
          (10:ℚ) ^ (sigExp q - 5) = _
      congr 1
      exact_mod_cast congrArg (fun z : ℤ => (z : ℚ)) (Int.toNat_of_nonneg hr0)
    · show 10 ^ 5 ≤ (round (q / (10:ℚ) ^ (sigExp q - 5))).toNat
      have : (10:ℕ) ^ 5 = 100000 := by norm_num
      omega
    · show (round (q / (10:ℚ) ^ (sigExp q - 5))).toNat < 10 ^ 6
      have h6 : (10:ℤ) ^ 6 = 1000000 := by norm_num
      rw [h6] at hcase
      have : (10:ℕ) ^ 6 = 1000000 := by norm_num
      omega

/-- The 6-significant-digit rounding is within half an ulp of the value. -/
theorem val6_close (q : ℚ) (hq : 0 < q) :
    |val6 q - q| ≤ 1 / 2 * (10:ℚ) ^ (sigExp q - 5) := by
  have h := (mant6_spec q hq).1
  have ht0 : (0:ℚ) < (10:ℚ) ^ (sigExp q - 5) := zpow_pos (by norm_num) _
  have key : val6 q - q =
      ((round (q / (10:ℚ) ^ (sigExp q - 5)) : ℚ) - q / (10:ℚ) ^ (sigExp q - 5)) *
        (10:ℚ) ^ (sigExp q - 5) := by
    rw [h, sub_mul, div_mul_cancel₀ q (ne_of_gt ht0)]
  rw [key, abs_mul, abs_of_pos ht0]
  apply mul_le_mul_of_nonneg_right ?_ ht0.le
  rw [abs_sub_comm]
  exact abs_sub_round _

/-- Integer/fraction split of `m` scaled by `10^w`. -/
theorem natMant_eq (m w : ℕ) :
    ((m / 10 ^ w : ℕ) : ℚ) + ((m % 10 ^ w : ℕ) : ℚ) / 10 ^ w =
      (m : ℚ) / 10 ^ w := by
  have hz : ((10:ℚ) ^ w) ≠ 0 := by positivity
  have h : (10:ℚ) ^ w * ((m / 10 ^ w : ℕ) : ℚ) + ((m % 10 ^ w : ℕ) : ℚ) =
      (m : ℚ) := by
    exact_mod_cast congrArg (fun n : ℕ => (n : ℚ)) (Nat.div_add_mod m (10 ^ w))
  rw [eq_div_iff hz, add_mul, div_mul_cancel₀ _ hz]
  linarith

theorem fracDigitsFixed_val (m w : ℕ) :
    (digitsVal (fracDigitsFixed m w) : ℚ) / 10 ^ (fracDigitsFixed m w).length =
      ((m % 10 ^ w : ℕ) : ℚ) / 10 ^ w := by
  unfold fracDigitsFixed
  rw [digitsVal_stripTrailingZeros, digitsVal_padLeftZeros, digitsVal_natDigitsStr,
    padLeftZeros_length _ _
      (natDigitsStr_len _ _ (Nat.mod_lt _ (pow_pos (by norm_num) w)))]

theorem fracDigitsFixed_digits (m w : ℕ) :
    ∀ c ∈ fracDigitsFixed m w, c.isDigit = true :=
  fun c hc =>
    padLeftZeros_digits _ _ (natDigitsStr_digits _) c (stripTrailingZeros_sub _ c hc)

/-- Parsing the fixed-notation rendering recovers the rounded value. -/
theorem pyFloat_fmt6Fixed (m : ℕ) (E : ℤ) (hE : E ≤ 5) :
    pyFloatChars? (fmt6Fixed m E) = some ((m : ℚ) * (10:ℚ) ^ (E - 5)) := by
  have hwE : ((5 - E).toNat : ℤ) = 5 - E := Int.toNat_of_nonneg (by omega)
  unfold fmt6Fixed
  have ht : (if fracDigitsFixed m (5 - E).toNat = [] then ([] : List Char)
        else '.' :: fracDigitsFixed m (5 - E).toNat) = [] ∧
        fracDigitsFixed m (5 - E).toNat = [] ∨
      (if fracDigitsFixed m (5 - E).toNat = [] then ([] : List Char)
        else '.' :: fracDigitsFixed m (5 - E).toNat) =
        '.' :: fracDigitsFixed m (5 - E).toNat := by
    by_cases hfs : fracDigitsFixed m (5 - E).toNat = []
    · exact Or.inl ⟨by rw [if_pos hfs], hfs⟩
    · exact Or.inr (by rw [if_neg hfs])
  rw [pyFloat_body _ _ _ (natRender_ne_nil _) (natRender_digits _)
    (fracDigitsFixed_digits m (5 - E).toNat) ht]
  congr 1
  unfold pyMantVal
  rw [digitsVal_natRender, fracDigitsFixed_val, natMant_eq, div_eq_mul_inv]
  congr 1
  rw [← zpow_natCast (10:ℚ) (5 - E).toNat, ← zpow_neg]
  congr 1
  omega

/-- Parsing the scientific-notation rendering recovers the rounded value. -/
theorem pyFloat_fmt6Sci (m : ℕ) (E : ℤ) :
    pyFloatChars? (fmt6Sci m E) = some ((m : ℚ) * (10:ℚ) ^ (E - 5)) := by
  unfold fmt6Sci
  have hes_ne : padLeftZeros 2 (natDigitsStr E.natAbs) ≠ [] := by
    intro hc
    have hlen := congrArg List.length hc
    rw [padLeftZeros] at hlen
    rw [List.length_append, List.length_replicate, List.length_nil] at hlen
    omega
  have hes_dig : ∀ c ∈ padLeftZeros 2 (natDigitsStr E.natAbs), c.isDigit = true :=
    padLeftZeros_digits _ _ (natDigitsStr_digits _)
  have hsc : (if E < 0 then '-' else '+') = '+' ∨
      (if E < 0 then '-' else '+') = '-' := by
    by_cases h : E < 0
    · right; rw [if_pos h]
    · left; rw [if_neg h]
  have ht : (if fracDigitsFixed m 5 = [] then ([] : List Char)
        else '.' :: fracDigitsFixed m 5) = [] ∧ fracDigitsFixed m 5 = [] ∨
      (if fracDigitsFixed m 5 = [] then ([] : List Char)
        else '.' :: fracDigitsFixed m 5) = '.' :: fracDigitsFixed m 5 := by
    by_cases hfs : fracDigitsFixed m 5 = []
    · exact Or.inl ⟨by rw [if_pos hfs], hfs⟩
    · exact Or.inr (by rw [if_neg hfs])
  rw [pyFloat_body_exp _ _ _ _ _ (natRender_ne_nil _) (natRender_digits _)
    (fracDigitsFixed_digits m 5) ht hsc hes_ne hes_dig]
  congr 1
  unfold pyMantVal
  rw [digitsVal_natRender, fracDigitsFixed_val, natMant_eq,
    digitsVal_padLeftZeros, digitsVal_natDigitsStr]
  have hsgn : (if (if E < 0 then '-' else '+') = '-' then (-1:ℤ) else 1) *
      (E.natAbs : ℤ) = E := by
    by_cases h : E < 0
    · rw [if_pos h, if_pos rfl]; omega
    · rw [if_neg h, if_neg (by decide)]; omega
  rw [hsgn, div_eq_mul_inv, mul_assoc]
  congr 1
  rw [← zpow_natCast (10:ℚ) 5, ← zpow_neg, ← zpow_add₀ (by norm_num : (10:ℚ) ≠ 0)]
  congr 1
  omega

/-- Parsing the `%.6g` rendering of a rational recovers its
6-significant-digit rounding. -/
theorem pyFloat_fmt6 (q : ℚ) : pyFloatChars? (fmt6 q) = some (val6 q) := by
  unfold fmt6
  by_cases h : (mant6 q).2 < -4 ∨ 6 ≤ (mant6 q).2
  · rw [if_pos h, pyFloat_fmt6Sci]
    rfl
  · rw [if_neg h, pyFloat_fmt6Fixed (mant6 q).1 (mant6 q).2 (by omega)]
    rfl

theorem fmt6Fixed_chars (m : ℕ) (E : ℤ) :
    ∀ c ∈ fmt6Fixed m E, c.isDigit = true ∨ c = '.' := by
  intro c hc
  unfold fmt6Fixed at hc
  rcases List.mem_append.mp hc with h | h
  · exact Or.inl (natRender_digits _ c h)
  · by_cases hfs : fracDigitsFixed m (5 - E).toNat = []
    · rw [if_pos hfs] at h
      exact absurd h (by simp)
    · rw [if_neg hfs] at h
      rcases List.mem_cons.mp h with rfl | h
      · exact Or.inr rfl
      · exact Or.inl (fracDigitsFixed_digits _ _ c h)

theorem fmt6Sci_chars (m : ℕ) (E : ℤ) :
    ∀ c ∈ fmt6Sci m E,
      c.isDigit = true ∨ c = '.' ∨ c = 'e' ∨ c = '+' ∨ c = '-' := by
  intro c hc
  unfold fmt6Sci at hc
  rcases List.mem_append.mp hc with h | h
  · rcases List.mem_append.mp h with h1 | h1
    · exact Or.inl (natRender_digits _ c h1)
    · by_cases hfs : fracDigitsFixed m 5 = []
      · rw [if_pos hfs] at h1
        exact absurd h1 (by simp)
      · rw [if_neg hfs] at h1
        rcases List.mem_cons.mp h1 with rfl | h1
        · exact Or.inr (Or.inl rfl)
        · exact Or.inl (fracDigitsFixed_digits _ _ c h1)
  · rcases List.mem_cons.mp h with rfl | h
    · exact Or.inr (Or.inr (Or.inl rfl))
    · rcases List.mem_cons.mp h with hsc | h
      · by_cases hE : E < 0
        · rw [if_pos hE] at hsc
          exact Or.inr (Or.inr (Or.inr (Or.inr hsc)))
        · rw [if_neg hE] at hsc
          exact Or.inr (Or.inr (Or.inr (Or.inl hsc)))
      · exact Or.inl (padLeftZeros_digits _ _ (natDigitsStr_digits _) c h)

theorem fmt6_not_ws (v : ℚ) : ∀ c ∈ fmt6 v, c.isWhitespace = false := by
  intro c hc
  unfold fmt6 at hc
  by_cases h : (mant6 v).2 < -4 ∨ 6 ≤ (mant6 v).2
  · rw [if_pos h] at hc
    rcases fmt6Sci_chars _ _ c hc with hd | rfl | rfl | rfl | rfl
    · exact (digit_not_special c hd).2.2.2.2.2
    · decide
    · decide
    · decide
    · decide
  · rw [if_neg h] at hc
    rcases fmt6Fixed_chars _ _ c hc with hd | rfl
    · exact (digit_not_special c hd).2.2.2.2.2
    · decide

theorem fmt6_ne_nil (v : ℚ) : fmt6 v ≠ [] := by
  unfold fmt6
  by_cases h : (mant6 v).2 < -4 ∨ 6 ≤ (mant6 v).2
  · rw [if_pos h]
    unfold fmt6Sci
    intro hc
    rcases List.append_eq_nil.mp hc with ⟨h1, _⟩
    rcases List.append_eq_nil.mp h1 with ⟨h2, _⟩
    exact natRender_ne_nil _ h2
  · rw [if_neg h]
    unfold fmt6Fixed
    intro hc
    rcases List.append_eq_nil.mp hc with ⟨h1, _⟩
    exact natRender_ne_nil _ h1

/-- Evaluation of `acceptLine` on an already-stripped well-formed record. -/
theorem acceptLine_eval (line : String) (a : Char) (t nm x1 x2 val : List Char)
    (v : ℚ) (hstrip : stripChars line.data = a :: t)
    (hRC : a = 'R' ∨ a = 'C')
    (hsplit : splitWsChars (a :: t) = [nm, x1, x2, val])
    (hval : pyFloatChars? val = some v) :
    acceptLine line = some ⟨⟨nm⟩, nm.headD ' ', v, ⟨x1⟩, ⟨x2⟩⟩ := by
  simp only [acceptLine, hstrip, hsplit, hval]
  rw [if_pos hRC]

/-- `acceptLine` applied to an emitted record line. -/
theorem acceptLine_emitLine (name n1 n2 : String) (v : ℚ)
    (hname : name.data ≠ [])
    (hnws : ∀ c ∈ name.data, c.isWhitespace = false)
    (hhead : name.data.headD ' ' = 'R' ∨ name.data.headD ' ' = 'C')
    (h1 : n1.data ≠ []) (h1ws : ∀ c ∈ n1.data, c.isWhitespace = false)
    (h2 : n2.data ≠ []) (h2ws : ∀ c ∈ n2.data, c.isWhitespace = false) :
    acceptLine (emitLine name n1 n2 v) =
      some ⟨name, name.data.headD ' ', val6 v, n1, n2⟩ := by
  obtain ⟨a, t, hat⟩ := List.exists_cons_of_ne_nil hname
  have hnws' : ∀ c ∈ a :: t, c.isWhitespace = false := by
    rw [← hat]
    exact hnws
  have hline : (emitLine name n1 n2 v).data =
      a :: (t ++ ' ' :: (n1.data ++ ' ' :: (n2.data ++ ' ' :: fmt6 v))) := by
    rw [show (emitLine name n1 n2 v).data =
      name.data ++ ' ' :: (n1.data ++ ' ' :: (n2.data ++ ' ' :: fmt6 v)) from rfl,
      hat, List.cons_append]
  have hstrip0 : stripChars ((a :: t) ++
      ' ' :: (n1.data ++ ' ' :: (n2.data ++ ' ' :: fmt6 v))) =
      (a :: t) ++ ' ' :: (n1.data ++ ' ' :: (n2.data ++ ' ' :: fmt6 v)) := by
    apply stripChars_id
    · intro c hc
      rw [List.cons_append, List.head?_cons] at hc
      injection hc with hc
      rw [← hc]
      exact hnws' a (List.mem_cons_self a t)
    · intro c hc
      rw [getLast?_append_right _ _ (by simp)] at hc
      rw [show (' ' :: (n1.data ++ ' ' :: (n2.data ++ ' ' :: fmt6 v))) =
        [' '] ++ (n1.data ++ ' ' :: (n2.data ++ ' ' :: fmt6 v)) from rfl] at hc
      rw [getLast?_append_right _ _ (by simp)] at hc
      rw [getLast?_append_right _ _ (by simp)] at hc
      rw [show (' ' :: (n2.data ++ ' ' :: fmt6 v)) =
        [' '] ++ (n2.data ++ ' ' :: fmt6 v) from rfl] at hc
      rw [getLast?_append_right _ _ (by simp)] at hc
      rw [getLast?_append_right _ _ (by simp)] at hc
      rw [show (' ' :: fmt6 v) = [' '] ++ fmt6 v from rfl] at hc
      rw [getLast?_append_right _ _ (fmt6_ne_nil v)] at hc
      exact fmt6_not_ws v c (mem_of_getLast?_eq hc)
  have hstrip : stripChars (emitLine name n1 n2 v).data =
      a :: (t ++ ' ' :: (n1.data ++ ' ' :: (n2.data ++ ' ' :: fmt6 v))) := by
    rw [hline, ← List.cons_append, hstrip0, List.cons_append]
  have hsplit : splitWsChars
      (a :: (t ++ ' ' :: (n1.data ++ ' ' :: (n2.data ++ ' ' :: fmt6 v)))) =
      [a :: t, n1.data, n2.data, fmt6 v] := by
    rw [← List.cons_append]
    unfold splitWsChars
    rw [splitWsAux_word_space _ _ (by simp) hnws',
      splitWsAux_word_space _ _ h1 h1ws,
      splitWsAux_word_space _ _ h2 h2ws,
      splitWsAux_word_last _ (fmt6_ne_nil v) (fmt6_not_ws v)]
  have hRC : a = 'R' ∨ a = 'C' := by
    rwa [hat, List.headD_cons] at hhead
  rw [acceptLine_eval (emitLine name n1 n2 v) a
    (t ++ ' ' :: (n1.data ++ ' ' :: (n2.data ++ ' ' :: fmt6 v)))
    (a :: t) n1.data n2.data (fmt6 v) (val6 v) hstrip hRC hsplit
    (pyFloat_fmt6 v), ← hat]

/-- C9: emitting a positive Double-Pi model and re-parsing the five R/C
record lines recovers exactly the 6-significant-digit roundings of the
emitted values, and each rounding is within half a unit in the 6th
significant digit of the original value. -/
theorem emitted_model_reparses_within_rounding (startNode : String)
    (R1 R2 C1 C2 C3 : ℚ) (hs : startNode.data ≠ [])
    (hsw : ∀ c ∈ startNode.data, c.isWhitespace = false)
    (hR1 : 0 < R1) (hR2 : 0 < R2) (hC1 : 0 < C1) (hC2 : 0 < C2) (hC3 : 0 < C3) :
    (parse_hspice_file (emit_double_pi_rc_lines startNode R1 R2 C1 C2 C3)).2.1 =
        [val6 R1, val6 R2] ∧
      (parse_hspice_file (emit_double_pi_rc_lines startNode R1 R2 C1 C2 C3)).2.2 =
        [val6 C1, val6 C2, val6 C3] ∧
      |val6 R1 - R1| ≤ 1 / 2 * (10:ℚ) ^ (sigExp R1 - 5) ∧
      |val6 R2 - R2| ≤ 1 / 2 * (10:ℚ) ^ (sigExp R2 - 5) ∧
      |val6 C1 - C1| ≤ 1 / 2 * (10:ℚ) ^ (sigExp C1 - 5) ∧
      |val6 C2 - C2| ≤ 1 / 2 * (10:ℚ) ^ (sigExp C2 - 5) ∧
      |val6 C3 - C3| ≤ 1 / 2 * (10:ℚ) ^ (sigExp C3 - 5) := by
  have ha1 : acceptLine (emitLine "R1" startNode "2" R1) =
      some ⟨"R1", 'R', val6 R1, startNode, "2"⟩ :=
    acceptLine_emitLine "R1" startNode "2" R1 (by decide) (by decide)
      (Or.inl (by decide)) hs hsw (by decide) (by decide)
  have ha2 : acceptLine (emitLine "R2" "2" "3" R2) =
      some ⟨"R2", 'R', val6 R2, "2", "3"⟩ :=
    acceptLine_emitLine "R2" "2" "3" R2 (by decide) (by decide)
      (Or.inl (by decide)) (by decide) (by decide) (by decide) (by decide)
  have ha3 : acceptLine (emitLine "C1" startNode "0" C1) =
      some ⟨"C1", 'C', val6 C1, startNode, "0"⟩ :=
    acceptLine_emitLine "C1" startNode "0" C1 (by decide) (by decide)
      (Or.inr (by decide)) hs hsw (by decide) (by decide)
  have ha4 : acceptLine (emitLine "C2" "2" "0" C2) =
      some ⟨"C2", 'C', val6 C2, "2", "0"⟩ :=
    acceptLine_emitLine "C2" "2" "0" C2 (by decide) (by decide)
      (Or.inr (by decide)) (by decide) (by decide) (by decide) (by decide)
  have ha5 : acceptLine (emitLine "C3" "3" "0" C3) =
      some ⟨"C3", 'C', val6 C3, "3", "0"⟩ :=
    acceptLine_emitLine "C3" "3" "0" C3 (by decide) (by decide)
      (Or.inr (by decide)) (by decide) (by decide) (by decide) (by decide)
  have hacc : acceptedRecords (emit_double_pi_rc_lines startNode R1 R2 C1 C2 C3) =
      [⟨"R1", 'R', val6 R1, startNode, "2"⟩, ⟨"R2", 'R', val6 R2, "2", "3"⟩,
       ⟨"C1", 'C', val6 C1, startNode, "0"⟩, ⟨"C2", 'C', val6 C2, "2", "0"⟩,
       ⟨"C3", 'C', val6 C3, "3", "0"⟩] := by
    unfold emit_double_pi_rc_lines acceptedRecords
    simp only [List.filterMap_cons, ha1, ha2, ha3, ha4, ha5, List.filterMap_nil]
  have p1 : nameLe (⟨"C2", 'C', val6 C2, "2", "0"⟩ : SpiceComponent)
      ⟨"C3", 'C', val6 C3, "3", "0"⟩ :=
    show ("C2" : String) ≤ "C3" by with_unfolding_all decide
  have p2 : nameLe (⟨"C1", 'C', val6 C1, startNode, "0"⟩ : SpiceComponent)
      ⟨"C2", 'C', val6 C2, "2", "0"⟩ :=
    show ("C1" : String) ≤ "C2" by with_unfolding_all decide
  have p3 : nameLe (⟨"R1", 'R', val6 R1, startNode, "2"⟩ : SpiceComponent)
      ⟨"R2", 'R', val6 R2, "2", "3"⟩ :=
    show ("R1" : String) ≤ "R2" by with_unfolding_all decide
  have n1 : ¬ nameLe (⟨"R2", 'R', val6 R2, "2", "3"⟩ : SpiceComponent)
      ⟨"C1", 'C', val6 C1, startNode, "0"⟩ :=
    show ¬ (("R2" : String) ≤ "C1") by with_unfolding_all decide
  have n2 : ¬ nameLe (⟨"R2", 'R', val6 R2, "2", "3"⟩ : SpiceComponent)
      ⟨"C2", 'C', val6 C2, "2", "0"⟩ :=
    show ¬ (("R2" : String) ≤ "C2") by with_unfolding_all decide
  have n3 : ¬ nameLe (⟨"R2", 'R', val6 R2, "2", "3"⟩ : SpiceComponent)
      ⟨"C3", 'C', val6 C3, "3", "0"⟩ :=
    show ¬ (("R2" : String) ≤ "C3") by with_unfolding_all decide
  have n4 : ¬ nameLe (⟨"R1", 'R', val6 R1, startNode, "2"⟩ : SpiceComponent)
      ⟨"C1", 'C', val6 C1, startNode, "0"⟩ :=
    show ¬ (("R1" : String) ≤ "C1") by with_unfolding_all decide
  have n5 : ¬ nameLe (⟨"R1", 'R', val6 R1, startNode, "2"⟩ : SpiceComponent)
      ⟨"C2", 'C', val6 C2, "2", "0"⟩ :=
    show ¬ (("R1" : String) ≤ "C2") by with_unfolding_all decide
  have n6 : ¬ nameLe (⟨"R1", 'R', val6 R1, startNode, "2"⟩ : SpiceComponent)
      ⟨"C3", 'C', val6 C3, "3", "0"⟩ :=
    show ¬ (("R1" : String) ≤ "C3") by with_unfolding_all decide
  have hsort : parsedComponents (emit_double_pi_rc_lines startNode R1 R2 C1 C2 C3) =
      [⟨"C1", 'C', val6 C1, startNode, "0"⟩, ⟨"C2", 'C', val6 C2, "2", "0"⟩,
       ⟨"C3", 'C', val6 C3, "3", "0"⟩, ⟨"R1", 'R', val6 R1, startNode, "2"⟩,
       ⟨"R2", 'R', val6 R2, "2", "3"⟩] := by
    unfold parsedComponents
    rw [hacc]
    simp [List.insertionSort, List.orderedInsert, p1, p2, p3, n1, n2, n3, n4, n5, n6]
  refine ⟨?_, ?_, val6_close R1 hR1, val6_close R2 hR2, val6_close C1 hC1,
    val6_close C2 hC2, val6_close C3 hC3⟩
  · show (((parsedComponents (emit_double_pi_rc_lines startNode R1 R2 C1 C2 C3)).filter
        (fun c => c.ctype = 'R')).map SpiceComponent.value) = [val6 R1, val6 R2]
    rw [hsort]
    simp +decide [List.filter_cons]
  · show (((parsedComponents (emit_double_pi_rc_lines startNode R1 R2 C1 C2 C3)).filter
        (fun c => c.ctype = 'C')).map SpiceComponent.value) = [val6 C1, val6 C2, val6 C3]
    rw [hsort]
    simp +decide [List.filter_cons]

/-- Witness for C9 at a concrete positive model. -/
theorem emitted_model_reparses_within_rounding_witness :
    (parse_hspice_file (emit_double_pi_rc_lines "1" 2 3 5 7 11)).2.1 =
        [val6 2, val6 3] ∧
      (parse_hspice_file (emit_double_pi_rc_lines "1" 2 3 5 7 11)).2.2 =
        [val6 5, val6 7, val6 11] ∧
      |val6 2 - 2| ≤ 1 / 2 * (10:ℚ) ^ (sigExp 2 - 5) ∧
      |val6 3 - 3| ≤ 1 / 2 * (10:ℚ) ^ (sigExp 3 - 5) ∧
      |val6 5 - 5| ≤ 1 / 2 * (10:ℚ) ^ (sigExp 5 - 5) ∧
      |val6 7 - 7| ≤ 1 / 2 * (10:ℚ) ^ (sigExp 7 - 5) ∧
      |val6 11 - 11| ≤ 1 / 2 * (10:ℚ) ^ (sigExp 11 - 5) :=
  emitted_model_reparses_within_rounding "1" 2 3 5 7 11 (by decide) (by decide)
    (by norm_num) (by norm_num) (by norm_num) (by norm_num) (by norm_num)

end RCTiming
